import Mathlib

/-!
Verification of the event-loop core (`src/core/ev.c`): ring queues, the
timer min-heap, listener bookkeeping, the fiber scheduler and channels.
Each C function is shallowly embedded as an executable Lean definition
that mirrors the source line by line; theorems relate those definitions
to list-level abstractions.
-/

namespace JanetEv

/-- Pointwise update of function-represented storage (models a single
array store `data[i] = x`). -/
def fset (f : Nat → α) (i : Nat) (x : α) : Nat → α :=
  fun j => if j = i then x else f j

theorem fset_same (f : Nat → α) (i : Nat) (x : α) : fset f i x i = x := by
  simp [fset]

theorem fset_other (f : Nat → α) (i j : Nat) (x : α) (h : j ≠ i) :
    fset f i x j = f j := by
  simp [fset, h]

/-! ## RingQueue (`JanetQueue`)

The C struct stores `capacity`, `head`, `tail` (all `int32_t`, always
non-negative here, so modelled as `Nat`) and raw storage, modelled as a
total function `Nat → α` (slots outside the live region are junk, as in C). -/

structure JanetQueue (α : Type) where
  capacity : Nat
  head : Nat
  tail : Nat
  data : Nat → α

def JANET_MAX_Q_CAPACITY : Nat := 0x7FFFFFF

/-- `janet_q_init`: empty queue with no storage. -/
def janet_q_init (dflt : α) : JanetQueue α :=
  ⟨0, 0, 0, fun _ => dflt⟩

/-- `janet_q_count`. -/
def janet_q_count (q : JanetQueue α) : Nat :=
  if q.head > q.tail then q.tail + q.capacity - q.head else q.tail - q.head

/-- The final store of `janet_q_push`: `memcpy` at `tail`, then advance
`tail` with wraparound. -/
def q_store (q : JanetQueue α) (x : α) : JanetQueue α :=
  { q with data := fset q.data q.tail x,
           tail := if q.tail + 1 < q.capacity then q.tail + 1 else 0 }

/-- The `memmove` in `janet_q_push`'s growth path: the segment
`[head, cap)` is shifted to `[head + (newcap - cap), newcap)`. -/
def growData (data : Nat → α) (head cap newcap : Nat) : Nat → α :=
  fun i => if head + (newcap - cap) ≤ i ∧ i < newcap
           then data (i - (newcap - cap)) else data i

/-- The resize step of `janet_q_push`: reallocate to `newcap`; when the
live segment wraps (`head > tail`), shift the head segment to the end of
the new storage. -/
def q_grow (q : JanetQueue α) (newcap : Nat) : JanetQueue α :=
  if q.head > q.tail then
    { q with data := growData q.data q.head q.capacity newcap,
             head := q.head + (newcap - q.capacity),
             capacity := newcap }
  else { q with capacity := newcap }

/-- `janet_q_push`. Returns the updated queue and a failure flag
(`true` corresponds to the C function returning 1 at the capacity cap,
in which case the queue is untouched). -/
def janet_q_push (q : JanetQueue α) (x : α) : JanetQueue α × Bool :=
  let count := janet_q_count q
  if count + 1 ≥ q.capacity then
    if count + 1 ≥ JANET_MAX_Q_CAPACITY then (q, true)
    else
      let newcap0 := (count + 2) * 2
      let newcap := if newcap0 > JANET_MAX_Q_CAPACITY then JANET_MAX_Q_CAPACITY
                    else newcap0
      (q_store (q_grow q newcap) x, false)
  else (q_store q x, false)

/-- `janet_q_pop`. `none` corresponds to the C function returning 1
(empty queue); otherwise the front item and the updated queue. -/
def janet_q_pop (q : JanetQueue α) : Option (α × JanetQueue α) :=
  if q.head = q.tail then none
  else some (q.data q.head,
             { q with head := if q.head + 1 < q.capacity then q.head + 1 else 0 })

/-- Well-formedness: indices inside storage and capacity below the hard
cap (true of all states reachable from `janet_q_init` through push/pop). -/
def WfQ (q : JanetQueue α) : Prop :=
  q.capacity ≤ JANET_MAX_Q_CAPACITY ∧
  ((q.capacity = 0 ∧ q.head = 0 ∧ q.tail = 0) ∨
   (q.head < q.capacity ∧ q.tail < q.capacity))

instance (q : JanetQueue α) : Decidable (WfQ q) := by
  unfold WfQ; infer_instance

/-- Abstraction: the live contents of the ring, front first. -/
def qlist (q : JanetQueue α) : List α :=
  if q.head ≤ q.tail then (List.range' q.head (q.tail - q.head)).map q.data
  else (List.range' q.head (q.capacity - q.head)).map q.data ++
       (List.range' 0 q.tail).map q.data

theorem qlist_init (dflt : α) : qlist (janet_q_init dflt) = [] := by
  simp [qlist, janet_q_init]

theorem wfq_init (dflt : α) : WfQ (janet_q_init dflt) := by
  simp [WfQ, janet_q_init]

/-- `janet_q_count` computes the length of the live contents. -/
theorem janet_q_count_eq_length (q : JanetQueue α) (hw : WfQ q) :
    janet_q_count q = (qlist q).length := by
  rcases hw with ⟨hm, ⟨h0, h1, h2⟩ | ⟨h1, h2⟩⟩
  · simp [janet_q_count, qlist, h1, h2]
  · by_cases h : q.head ≤ q.tail
    · simp only [janet_q_count, qlist, if_pos h, if_neg (Nat.not_lt.mpr h),
        List.length_map, List.length_range']
    · have h' : q.head > q.tail := Nat.lt_of_not_le h
      simp only [janet_q_count, qlist, if_pos h', if_neg (Nat.not_le.mpr h'),
        List.length_append, List.length_map, List.length_range']
      omega

theorem qlist_empty_iff (q : JanetQueue α) (hw : WfQ q) :
    qlist q = [] ↔ q.head = q.tail := by
  constructor
  · intro h
    have hl := janet_q_count_eq_length q hw
    rw [h] at hl
    simp at hl
    rcases hw with ⟨hm, ⟨h0, h1, h2⟩ | ⟨h1, h2⟩⟩
    · omega
    · unfold janet_q_count at hl
      split at hl <;> omega
  · intro h
    simp [qlist, h]

theorem range'_succ_right (s n : Nat) :
    List.range' s (n + 1) = List.range' s n ++ [s + n] := by
  have h := @List.range'_concat 1 s n
  simpa using h

theorem range'_map_ext (f g : Nat → α) (s n : Nat)
    (h : ∀ i, s ≤ i → i < s + n → f i = g i) :
    (List.range' s n).map f = (List.range' s n).map g :=
  List.map_congr_left (fun i hi =>
    h i (List.mem_range'_1.mp hi).1 (List.mem_range'_1.mp hi).2)


/-- Storing at `tail` appends the stored item to the live contents. -/
theorem q_store_spec (q : JanetQueue α) (x : α) (hw : WfQ q)
    (hc : janet_q_count q + 1 < q.capacity) :
    WfQ (q_store q x) ∧ qlist (q_store q x) = qlist q ++ [x] := by
  obtain ⟨hmax, hw2⟩ := hw
  have hcpos : 0 < q.capacity := by omega
  have hh : q.head < q.capacity := by rcases hw2 with ⟨h0, _, _⟩ | ⟨h, _⟩ <;> omega
  have ht : q.tail < q.capacity := by rcases hw2 with ⟨h0, _, _⟩ | ⟨_, h⟩ <;> omega
  by_cases hle : q.head ≤ q.tail
  · have hcnt : q.tail - q.head + 1 < q.capacity := by
      simpa [janet_q_count, Nat.not_lt.mpr hle] using hc
    by_cases hwrap : q.tail + 1 < q.capacity
    · have hq : q_store q x =
          (⟨q.capacity, q.head, q.tail + 1, fset q.data q.tail x⟩ : JanetQueue α) := by
        simp [q_store, hwrap]
      rw [hq]
      refine ⟨⟨hmax, Or.inr ⟨hh, hwrap⟩⟩, ?_⟩
      have e1 : qlist (⟨q.capacity, q.head, q.tail + 1,
          fset q.data q.tail x⟩ : JanetQueue α) =
          (List.range' q.head (q.tail + 1 - q.head)).map (fset q.data q.tail x) := by
        simp [qlist, Nat.le_succ_of_le hle]
      have e2 : q.tail + 1 - q.head = (q.tail - q.head) + 1 := by omega
      rw [e1, e2, range'_succ_right, List.map_append]
      have e3 : q.head + (q.tail - q.head) = q.tail := by omega
      have e4 : (List.range' q.head (q.tail - q.head)).map (fset q.data q.tail x) =
          (List.range' q.head (q.tail - q.head)).map q.data :=
        range'_map_ext _ _ _ _ (fun i h1 h2 => fset_other _ _ _ _ (by omega))
      rw [e4]
      simp [qlist, hle, e3, fset_same]
    · have htc : q.tail + 1 = q.capacity := by omega
      have hhpos : 0 < q.head := by omega
      have hq : q_store q x =
          (⟨q.capacity, q.head, 0, fset q.data q.tail x⟩ : JanetQueue α) := by
        simp [q_store, hwrap]
      rw [hq]
      refine ⟨⟨hmax, Or.inr ⟨hh, hcpos⟩⟩, ?_⟩
      have e1 : qlist (⟨q.capacity, q.head, 0,
          fset q.data q.tail x⟩ : JanetQueue α) =
          (List.range' q.head (q.capacity - q.head)).map (fset q.data q.tail x) := by
        simp [qlist, Nat.not_le.mpr hhpos]
      have e2 : q.capacity - q.head = (q.tail - q.head) + 1 := by omega
      rw [e1, e2, range'_succ_right, List.map_append]
      have e3 : q.head + (q.tail - q.head) = q.tail := by omega
      have e4 : (List.range' q.head (q.tail - q.head)).map (fset q.data q.tail x) =
          (List.range' q.head (q.tail - q.head)).map q.data :=
        range'_map_ext _ _ _ _ (fun i h1 h2 => fset_other _ _ _ _ (by omega))
      rw [e4]
      simp [qlist, hle, e3, fset_same]
  · have hgt : q.tail < q.head := Nat.lt_of_not_le hle
    have hcnt : q.tail + q.capacity - q.head + 1 < q.capacity := by
      simpa [janet_q_count, hgt] using hc
    have hlt : q.tail + 1 < q.head := by omega
    have hwrap : q.tail + 1 < q.capacity := by omega
    have hq : q_store q x =
        (⟨q.capacity, q.head, q.tail + 1, fset q.data q.tail x⟩ : JanetQueue α) := by
      simp [q_store, hwrap]
    rw [hq]
    refine ⟨⟨hmax, Or.inr ⟨hh, hwrap⟩⟩, ?_⟩
    have e1 : qlist (⟨q.capacity, q.head, q.tail + 1,
        fset q.data q.tail x⟩ : JanetQueue α) =
        (List.range' q.head (q.capacity - q.head)).map (fset q.data q.tail x) ++
        (List.range' 0 (q.tail + 1)).map (fset q.data q.tail x) := by
      simp [qlist, Nat.not_le.mpr hlt]
    rw [e1, range'_succ_right, List.map_append]
    have e4 : (List.range' q.head (q.capacity - q.head)).map (fset q.data q.tail x) =
        (List.range' q.head (q.capacity - q.head)).map q.data :=
      range'_map_ext _ _ _ _ (fun i h1 h2 => fset_other _ _ _ _ (by omega))
    have e5 : (List.range' 0 q.tail).map (fset q.data q.tail x) =
        (List.range' 0 q.tail).map q.data :=
      range'_map_ext _ _ _ _ (fun i h1 h2 => fset_other _ _ _ _ (by omega))
    rw [e4, e5]
    simp [qlist, Nat.not_le.mpr hgt, fset_same]

/-- Growth leaves the live contents (and the count) unchanged. -/
theorem q_grow_spec (q : JanetQueue α) (newcap : Nat) (hw : WfQ q)
    (h1 : q.capacity ≤ newcap) (h2 : newcap ≤ JANET_MAX_Q_CAPACITY)
    (h3 : 0 < newcap) :
    WfQ (q_grow q newcap) ∧ qlist (q_grow q newcap) = qlist q ∧
    janet_q_count (q_grow q newcap) = janet_q_count q ∧
    (q_grow q newcap).capacity = newcap := by
  obtain ⟨hmax, hw2⟩ := hw
  by_cases hgt : q.head > q.tail
  · have hh : q.head < q.capacity := by rcases hw2 with ⟨h0, _, _⟩ | ⟨h, _⟩ <;> omega
    have ht : q.tail < q.capacity := by rcases hw2 with ⟨h0, _, _⟩ | ⟨_, h⟩ <;> omega
    have hgt2 : q.head + (newcap - q.capacity) > q.tail := by omega
    have hq : q_grow q newcap =
        (⟨newcap, q.head + (newcap - q.capacity), q.tail,
          growData q.data q.head q.capacity newcap⟩ : JanetQueue α) := by
      simp [q_grow, hgt]
    rw [hq]
    refine ⟨⟨h2, Or.inr ⟨?_, ?_⟩⟩, ?_, ?_, rfl⟩
    · show q.head + (newcap - q.capacity) < newcap
      omega
    · show q.tail < newcap
      omega
    · have e1 : qlist (⟨newcap, q.head + (newcap - q.capacity), q.tail,
          growData q.data q.head q.capacity newcap⟩ : JanetQueue α) =
          (List.range' (q.head + (newcap - q.capacity))
            (newcap - (q.head + (newcap - q.capacity)))).map
            (growData q.data q.head q.capacity newcap) ++
          (List.range' 0 q.tail).map (growData q.data q.head q.capacity newcap) := by
        simp [qlist, Nat.not_le.mpr hgt2]
      have e0 : newcap - (q.head + (newcap - q.capacity)) = q.capacity - q.head := by
        omega
      rw [e1, e0]
      have e2 : List.range' (q.head + (newcap - q.capacity)) (q.capacity - q.head) =
          (List.range' q.head (q.capacity - q.head)).map ((newcap - q.capacity) + ·) := by
        rw [List.map_add_range']
        congr 1
        omega
      have e3 : (List.range' (q.head + (newcap - q.capacity)) (q.capacity - q.head)).map
            (growData q.data q.head q.capacity newcap) =
          (List.range' q.head (q.capacity - q.head)).map q.data := by
        rw [e2, List.map_map]
        refine range'_map_ext _ _ _ _ (fun i hi1 hi2 => ?_)
        show growData q.data q.head q.capacity newcap (newcap - q.capacity + i) = q.data i
        unfold growData
        have c1 : q.head + (newcap - q.capacity) ≤ newcap - q.capacity + i := by omega
        have c2 : newcap - q.capacity + i < newcap := by omega
        simp only [c1, c2, and_self, if_pos]
        congr 1
        omega
      have e4 : (List.range' 0 q.tail).map (growData q.data q.head q.capacity newcap) =
          (List.range' 0 q.tail).map q.data := by
        refine range'_map_ext _ _ _ _ (fun i hi1 hi2 => ?_)
        unfold growData
        have : ¬(q.head + (newcap - q.capacity) ≤ i ∧ i < newcap) := by omega
        simp [this]
      rw [e3, e4]
      simp [qlist, Nat.not_le.mpr hgt]
    · have c1 : q.head + (newcap - q.capacity) > q.tail := hgt2
      simp only [janet_q_count, c1, hgt, if_pos]
      omega
  · have hle : q.head ≤ q.tail := Nat.le_of_not_lt hgt
    have hq : q_grow q newcap =
        (⟨newcap, q.head, q.tail, q.data⟩ : JanetQueue α) := by
      simp [q_grow, hgt]
    rw [hq]
    refine ⟨⟨h2, ?_⟩, ?_, ?_, rfl⟩
    · rcases hw2 with ⟨h0, hA, hB⟩ | ⟨hA, hB⟩
      · refine Or.inr ⟨?_, ?_⟩
        · show q.head < newcap
          omega
        · show q.tail < newcap
          omega
      · refine Or.inr ⟨?_, ?_⟩
        · show q.head < newcap
          omega
        · show q.tail < newcap
          omega
    · simp [qlist, hle]
    · simp [janet_q_count, Nat.not_lt.mpr hle]

/-- `janet_q_push` at the hard cap: fails and leaves the queue untouched. -/
theorem janet_q_push_fail (q : JanetQueue α) (x : α) (hw : WfQ q)
    (hc : janet_q_count q + 1 ≥ JANET_MAX_Q_CAPACITY) :
    janet_q_push q x = (q, true) := by
  obtain ⟨hmax, _⟩ := hw
  have h1 : janet_q_count q + 1 ≥ q.capacity := by omega
  simp [janet_q_push, h1, hc]

/-- `janet_q_push` below the hard cap: succeeds, stays well formed and
appends the item to the live contents. -/
theorem janet_q_push_ok (q : JanetQueue α) (x : α) (hw : WfQ q)
    (hc : janet_q_count q + 1 < JANET_MAX_Q_CAPACITY) :
    (janet_q_push q x).2 = false ∧ WfQ (janet_q_push q x).1 ∧
    qlist (janet_q_push q x).1 = qlist q ++ [x] := by
  by_cases hg : janet_q_count q + 1 ≥ q.capacity
  · have hnc : ¬(janet_q_count q + 1 ≥ JANET_MAX_Q_CAPACITY) := by omega
    set newcap0 := (janet_q_count q + 2) * 2 with hn0
    set newcap := if newcap0 > JANET_MAX_Q_CAPACITY then JANET_MAX_Q_CAPACITY
                  else newcap0 with hn
    have hlt : janet_q_count q + 1 < newcap := by
      rw [hn]; split <;> omega
    have hcap : q.capacity ≤ newcap := by omega
    have hmaxn : newcap ≤ JANET_MAX_Q_CAPACITY := by
      rw [hn]; split <;> omega
    have hpos : 0 < newcap := by omega
    obtain ⟨gw, gql, gcnt, gcap⟩ := q_grow_spec q newcap hw hcap hmaxn hpos
    have hsc : janet_q_count (q_grow q newcap) + 1 < (q_grow q newcap).capacity := by
      rw [gcnt, gcap]; exact hlt
    obtain ⟨sw, sql⟩ := q_store_spec (q_grow q newcap) x gw hsc
    have epush : janet_q_push q x = (q_store (q_grow q newcap) x, false) := by
      simp only [janet_q_push, if_pos hg, if_neg hnc]
    rw [epush]
    exact ⟨rfl, sw, by rw [sql, gql]⟩
  · have hsc : janet_q_count q + 1 < q.capacity := by omega
    obtain ⟨sw, sql⟩ := q_store_spec q x hw hsc
    have epush : janet_q_push q x = (q_store q x, false) := by
      simp only [janet_q_push, if_neg hg]
    rw [epush]
    exact ⟨rfl, sw, sql⟩

/-- `janet_q_pop` on an empty queue. -/
theorem janet_q_pop_none (q : JanetQueue α) (hw : WfQ q) :
    janet_q_pop q = none ↔ qlist q = [] := by
  rw [qlist_empty_iff q hw]
  constructor
  · intro hp
    by_contra hne
    simp [janet_q_pop, hne] at hp
  · intro he
    simp [janet_q_pop, he]

/-- `janet_q_pop` on a non-empty queue removes and yields the front item. -/
theorem janet_q_pop_some (q : JanetQueue α) (hw : WfQ q)
    (h : q.head ≠ q.tail) :
    ∃ q', janet_q_pop q = some (q.data q.head, q') ∧ WfQ q' ∧
      qlist q = q.data q.head :: qlist q' ∧ q'.data = q.data ∧
      q'.tail = q.tail ∧ q'.capacity = q.capacity := by
  obtain ⟨hmax, hw2⟩ := hw
  have hh : q.head < q.capacity := by rcases hw2 with ⟨h0, hA, hB⟩ | ⟨hA, _⟩ <;> omega
  have ht : q.tail < q.capacity := by rcases hw2 with ⟨h0, hA, hB⟩ | ⟨_, hB⟩ <;> omega
  by_cases hc : q.head + 1 < q.capacity
  · refine ⟨(⟨q.capacity, q.head + 1, q.tail, q.data⟩ : JanetQueue α), ?_, ?_, ?_, rfl, rfl, rfl⟩
    · simp [janet_q_pop, h, hc]
    · exact ⟨hmax, Or.inr ⟨hc, ht⟩⟩
    · by_cases hle : q.head ≤ q.tail
      · have hlt : q.head < q.tail := by omega
        have hle2 : q.head + 1 ≤ q.tail := hlt
        have e1 : qlist q = (List.range' q.head (q.tail - q.head)).map q.data := by
          simp [qlist, hle]
        have e2 : q.tail - q.head = (q.tail - (q.head + 1)) + 1 := by omega
        have e3 : qlist (⟨q.capacity, q.head + 1, q.tail, q.data⟩ : JanetQueue α) =
            (List.range' (q.head + 1) (q.tail - (q.head + 1))).map q.data := by
          simp [qlist, hle2]
        rw [e1, e2, e3, List.range'_succ]
        simp
      · have hgt : q.tail < q.head := Nat.lt_of_not_le hle
        have hle2 : ¬(q.head + 1 ≤ q.tail) := by omega
        have e1 : qlist q =
            (List.range' q.head (q.capacity - q.head)).map q.data ++
            (List.range' 0 q.tail).map q.data := by
          simp [qlist, Nat.not_le.mpr hgt]
        have e2 : q.capacity - q.head = (q.capacity - (q.head + 1)) + 1 := by omega
        have e3 : qlist (⟨q.capacity, q.head + 1, q.tail, q.data⟩ : JanetQueue α) =
            (List.range' (q.head + 1) (q.capacity - (q.head + 1))).map q.data ++
            (List.range' 0 q.tail).map q.data := by
          simp [qlist, hle2]
        rw [e1, e2, e3, List.range'_succ]
        simp
  · have hce : q.head + 1 = q.capacity := by omega
    have hgt : q.tail < q.head := by omega
    refine ⟨(⟨q.capacity, 0, q.tail, q.data⟩ : JanetQueue α), ?_, ?_, ?_, rfl, rfl, rfl⟩
    · simp [janet_q_pop, h, hc]
    · refine ⟨hmax, Or.inr ⟨?_, ht⟩⟩
      show 0 < q.capacity
      omega
    · have e1 : qlist q =
          (List.range' q.head (q.capacity - q.head)).map q.data ++
          (List.range' 0 q.tail).map q.data := by
        simp [qlist, Nat.not_le.mpr hgt]
      have e2 : q.capacity - q.head = 1 := by omega
      have e3 : qlist (⟨q.capacity, 0, q.tail, q.data⟩ : JanetQueue α) =
          (List.range' 0 q.tail).map q.data := by
        simp [qlist]
      rw [e1, e2, e3]
      simp

/-! ## Whole-run FIFO simulation for the ring queue -/

/-- A single ring-queue operation. -/
inductive QOp (α : Type) where
  | push (x : α)
  | pop

/-- Run a sequence of operations through `janet_q_push` / `janet_q_pop`,
collecting the popped items in order. -/
def runQ (q : JanetQueue α) : List (QOp α) → JanetQueue α × List α
  | [] => (q, [])
  | QOp.push x :: ops => runQ (janet_q_push q x).1 ops
  | QOp.pop :: ops =>
      match janet_q_pop q with
      | none => runQ q ops
      | some (y, q') =>
          let r := runQ q' ops
          (r.1, y :: r.2)

/-- FIFO reference model: a plain list, front first. A push at the hard
cap is dropped (the C code returns 1 and stores nothing); a pop on an
empty queue yields nothing. -/
def fifoRun (l : List α) : List (QOp α) → List α × List α
  | [] => (l, [])
  | QOp.push x :: ops =>
      if l.length + 1 ≥ JANET_MAX_Q_CAPACITY then fifoRun l ops
      else fifoRun (l ++ [x]) ops
  | QOp.pop :: ops =>
      match l with
      | [] => fifoRun [] ops
      | y :: l' =>
          let r := fifoRun l' ops
          (r.1, y :: r.2)

theorem runQ_sim (ops : List (QOp α)) :
    ∀ q : JanetQueue α, WfQ q →
    WfQ (runQ q ops).1 ∧ qlist (runQ q ops).1 = (fifoRun (qlist q) ops).1 ∧
    (runQ q ops).2 = (fifoRun (qlist q) ops).2 := by
  induction ops with
  | nil => intro q hw; exact ⟨hw, rfl, rfl⟩
  | cons op ops ih =>
    intro q hw
    cases op with
    | push x =>
      by_cases hcap : janet_q_count q + 1 ≥ JANET_MAX_Q_CAPACITY
      · have hfail := janet_q_push_fail q x hw hcap
        have hlen : (qlist q).length + 1 ≥ JANET_MAX_Q_CAPACITY := by
          rw [← janet_q_count_eq_length q hw]; exact hcap
        have e1 : runQ q (QOp.push x :: ops) = runQ q ops := by
          simp [runQ, hfail]
        have e2 : fifoRun (qlist q) (QOp.push x :: ops) = fifoRun (qlist q) ops := by
          simp [fifoRun, hlen]
        rw [e1, e2]
        exact ih q hw
      · have hok := janet_q_push_ok q x hw (by omega)
        have hlen : ¬((qlist q).length + 1 ≥ JANET_MAX_Q_CAPACITY) := by
          rw [← janet_q_count_eq_length q hw]; omega
        have e1 : runQ q (QOp.push x :: ops) = runQ (janet_q_push q x).1 ops := by
          simp [runQ]
        have e2 : fifoRun (qlist q) (QOp.push x :: ops) =
            fifoRun (qlist q ++ [x]) ops := by
          simp [fifoRun, hlen]
        rw [e1, e2, ← hok.2.2]
        exact ih _ hok.2.1
    | pop =>
      by_cases hemp : qlist q = []
      · have hnone : janet_q_pop q = none := (janet_q_pop_none q hw).mpr hemp
        have e1 : runQ q (QOp.pop :: ops) = runQ q ops := by
          simp [runQ, hnone]
        have e2 : fifoRun (qlist q) (QOp.pop :: ops) = fifoRun (qlist q) ops := by
          rw [hemp]
          simp only [fifoRun]
        rw [e1, e2]
        exact ih q hw
      · have hne : q.head ≠ q.tail := by
          intro hq
          exact hemp ((qlist_empty_iff q hw).mpr hq)
        obtain ⟨q', hpop, hw', hql, _, _, _⟩ := janet_q_pop_some q hw hne
        have e1 : runQ q (QOp.pop :: ops) =
            ((runQ q' ops).1, q.data q.head :: (runQ q' ops).2) := by
          simp [runQ, hpop]
        have e2 : fifoRun (qlist q) (QOp.pop :: ops) =
            ((fifoRun (qlist q') ops).1,
             q.data q.head :: (fifoRun (qlist q') ops).2) := by
          rw [hql]; simp [fifoRun]
        rw [e1, e2]
        obtain ⟨w, a, b⟩ := ih q' hw'
        exact ⟨w, by rw [a], by rw [b]⟩

/-! ## Timer min-heap (`janet_vm_tq`)

The heap is an array `janet_vm_tq` with live prefix `janet_vm_tq_count`,
modelled as a storage function plus a count (capacity growth by `realloc`
does not affect contents).  The C sift loops terminate because the index
moves strictly toward the root (up) or the leaves (down); the embeddings
take an explicit iteration bound, and every call site passes a bound that
the proofs show is never exhausted. -/

structure JanetTimeout where
  when : Int
  fiber : Nat
  sched_id : Nat
  is_error : Bool
deriving DecidableEq, Repr

structure TimerHeap where
  count : Nat
  tq : Nat → JanetTimeout

def emptyHeap : TimerHeap :=
  ⟨0, fun _ => ⟨0, 0, 0, false⟩⟩

/-- The heapify loop of `add_timeout`: sift the entry at `index` up. -/
def siftUpGo : Nat → (Nat → JanetTimeout) → Nat → (Nat → JanetTimeout)
  | 0, f, _ => f
  | fuel + 1, f, index =>
      if index = 0 then f
      else
        let parent := (index - 1) / 2
        if (f parent).when ≤ (f index).when then f
        else siftUpGo fuel (fset (fset f index (f parent)) parent (f index)) parent

/-- `add_timeout`: append then sift up (the loop runs at most `index`
steps since the index strictly decreases). -/
def add_timeout (h : TimerHeap) (t : JanetTimeout) : TimerHeap :=
  ⟨h.count + 1, siftUpGo h.count (fset h.tq h.count t) h.count⟩

/-- The sift-down loop of `pop_timeout`: pick the smaller child (with the
same strict comparisons and tie behaviour as the C code), swap, repeat. -/
def siftDownGo : Nat → Nat → (Nat → JanetTimeout) → Nat → (Nat → JanetTimeout)
  | 0, _, f, _ => f
  | fuel + 1, n, f, index =>
      let left := 2 * index + 1
      let right := left + 1
      let s1 := if left < n ∧ (f left).when < (f index).when then left else index
      let smallest := if right < n ∧ (f right).when < (f s1).when then right else s1
      if smallest = index then f
      else siftDownGo fuel n (fset (fset f index (f smallest)) smallest (f index)) smallest

/-- `pop_timeout`: replace slot `index` with the last entry, shrink, sift
down (the loop runs at most `count` steps since the index strictly
increases). -/
def pop_timeout (h : TimerHeap) (index : Nat) : TimerHeap :=
  if h.count ≤ index then h
  else
    let n := h.count - 1
    ⟨n, siftDownGo n n (fset h.tq index (h.tq n)) index⟩

/-- `peek_timeout`. -/
def peek_timeout (h : TimerHeap) : Option JanetTimeout :=
  if h.count = 0 then none else some (h.tq 0)

/-- Binary-min-heap ordering on the live prefix. -/
def HeapProp (n : Nat) (f : Nat → JanetTimeout) : Prop :=
  ∀ c, 1 ≤ c → c < n → (f ((c - 1) / 2)).when ≤ (f c).when

def IsHeap (h : TimerHeap) : Prop :=
  HeapProp h.count h.tq

/-- Successive roots, i.e. the order in which the loop would fire timers. -/
def heapDrainGo : Nat → TimerHeap → List JanetTimeout
  | 0, _ => []
  | fuel + 1, h =>
      if h.count = 0 then [] else h.tq 0 :: heapDrainGo fuel (pop_timeout h 0)

def heapDrain (h : TimerHeap) : List JanetTimeout :=
  heapDrainGo h.count h


/-- One swap of the sift-up loop: exchanging a hole with its parent turns
"heap except the edge into `j`" into "heap except the edge into `p`". -/
theorem siftUp_step (n j p : Nat) (f f' : Nat → JanetTimeout)
    (hpj : p < j) (hjn : j < n) (hpeq : p = (j - 1) / 2)
    (hlt : (f j).when < (f p).when)
    (f'p : f' p = f j) (f'j : f' j = f p)
    (f'z : ∀ z, z ≠ p → z ≠ j → f' z = f z)
    (h1 : ∀ c, 1 ≤ c → c < n → c ≠ j → (f ((c - 1) / 2)).when ≤ (f c).when)
    (h2 : ∀ c, 1 ≤ c → c < n → (c - 1) / 2 = j → 1 ≤ j →
      (f ((j - 1) / 2)).when ≤ (f c).when) :
    (∀ c, 1 ≤ c → c < n → c ≠ p → (f' ((c - 1) / 2)).when ≤ (f' c).when) ∧
    (∀ c, 1 ≤ c → c < n → (c - 1) / 2 = p → 1 ≤ p →
      (f' ((p - 1) / 2)).when ≤ (f' c).when) := by
  rw [← hpeq] at h2
  constructor
  · intro c hc1 hcn hcp
    by_cases hcj : c = j
    · subst hcj
      rw [← hpeq, f'p, f'j]
      omega
    · have hfc : f' c = f c := f'z c hcp hcj
      by_cases hdj : (c - 1) / 2 = j
      · rw [hfc, hdj, f'j]
        exact h2 c hc1 hcn hdj (by omega)
      · by_cases hdp : (c - 1) / 2 = p
        · rw [hfc, hdp, f'p]
          have h1c := h1 c hc1 hcn hcj
          rw [hdp] at h1c
          omega
        · rw [hfc, f'z _ hdp hdj]
          exact h1 c hc1 hcn hcj
  · intro c hc1 hcn hdp hp1
    have hgp_ne_p : (p - 1) / 2 ≠ p := by omega
    have hgp_ne_j : (p - 1) / 2 ≠ j := by omega
    rw [f'z _ hgp_ne_p hgp_ne_j]
    by_cases hcj : c = j
    · subst hcj
      rw [f'j]
      exact h1 p hp1 (by omega) (by omega)
    · by_cases hcp : c = p
      · omega
      · rw [f'z c hcp hcj]
        have hA := h1 c hc1 hcn hcj
        rw [hdp] at hA
        have hB := h1 p hp1 (by omega) (by omega)
        omega

theorem siftUpGo_heap (n : Nat) : ∀ fuel j f, j ≤ fuel → j < n →
    (∀ c, 1 ≤ c → c < n → c ≠ j → (f ((c - 1) / 2)).when ≤ (f c).when) →
    (∀ c, 1 ≤ c → c < n → (c - 1) / 2 = j → 1 ≤ j →
      (f ((j - 1) / 2)).when ≤ (f c).when) →
    HeapProp n (siftUpGo fuel f j) := by
  intro fuel
  induction fuel with
  | zero =>
    intro j f hfuel hjn h1 h2
    intro c hc1 hcn
    exact h1 c hc1 hcn (by omega)
  | succ fuel ih =>
    intro j f hfuel hjn h1 h2
    by_cases hj0 : j = 0
    · simp only [siftUpGo, if_pos hj0]
      intro c hc1 hcn
      exact h1 c hc1 hcn (by omega)
    · simp only [siftUpGo, if_neg hj0]
      by_cases hbrk : (f ((j - 1) / 2)).when ≤ (f j).when
      · simp only [if_pos hbrk]
        intro c hc1 hcn
        by_cases hcj : c = j
        · subst hcj; exact hbrk
        · exact h1 c hc1 hcn hcj
      · simp only [if_neg hbrk]
        have hstep := siftUp_step n j ((j - 1) / 2) f
          (fset (fset f j (f ((j - 1) / 2))) ((j - 1) / 2) (f j))
          (by omega) hjn rfl (by omega)
          (fset_same _ _ _)
          (by
            rw [fset_other _ _ _ _ (by omega : j ≠ (j - 1) / 2)]
            exact fset_same _ _ _)
          (by
            intro z hzp hzj
            rw [fset_other _ _ _ _ hzp, fset_other _ _ _ _ hzj])
          h1 h2
        exact ih ((j - 1) / 2) _ (by omega) (by omega) hstep.1 hstep.2

/-- `add_timeout` preserves the heap property. -/
theorem add_timeout_heap (h : TimerHeap) (t : JanetTimeout) (hh : IsHeap h) :
    IsHeap (add_timeout h t) := by
  show HeapProp (h.count + 1) (siftUpGo h.count (fset h.tq h.count t) h.count)
  refine siftUpGo_heap (h.count + 1) h.count h.count _ (le_refl _) (by omega) ?_ ?_
  · intro c hc1 hcn hcj
    have hlt : c < h.count := by omega
    have hplt : (c - 1) / 2 < h.count := by omega
    rw [fset_other _ _ _ _ (by omega), fset_other _ _ _ _ (by omega)]
    exact hh c hc1 hlt
  · intro c hc1 hcn hd hj1
    omega

/-- One swap of the sift-down loop: exchanging the hole `j` with its
smaller child `s` moves the "heap except below `j`" defect down to `s`. -/
theorem siftDown_step (n j s : Nat) (f f' : Nat → JanetTimeout)
    (hjs : j < s) (hsn : s < n) (hseq : (s - 1) / 2 = j)
    (hlt : (f s).when < (f j).when)
    (hother : ∀ c, 1 ≤ c → c < n → (c - 1) / 2 = j → c ≠ s →
      (f s).when ≤ (f c).when)
    (f'j : f' j = f s) (f's : f' s = f j)
    (f'z : ∀ z, z ≠ j → z ≠ s → f' z = f z)
    (h1 : ∀ c, 1 ≤ c → c < n → (c - 1) / 2 ≠ j → (f ((c - 1) / 2)).when ≤ (f c).when)
    (h2 : ∀ c, 1 ≤ c → c < n → (c - 1) / 2 = j → 1 ≤ j →
      (f ((j - 1) / 2)).when ≤ (f c).when) :
    (∀ c, 1 ≤ c → c < n → (c - 1) / 2 ≠ s → (f' ((c - 1) / 2)).when ≤ (f' c).when) ∧
    (∀ c, 1 ≤ c → c < n → (c - 1) / 2 = s → 1 ≤ s →
      (f' ((s - 1) / 2)).when ≤ (f' c).when) := by
  constructor
  · intro c hc1 hcn hcs
    by_cases hcj : c = j
    · subst hcj
      have hc1' : 1 ≤ c := hc1
      have hdp_ne_c : (c - 1) / 2 ≠ c := by omega
      have hdp_ne_s : (c - 1) / 2 ≠ s := by omega
      rw [f'z _ hdp_ne_c hdp_ne_s, f'j]
      exact h2 s (by omega) hsn hseq (by omega)
    · by_cases hcs2 : c = s
      · subst hcs2
        rw [hseq, f'j, f's]
        omega
      · have hfc : f' c = f c := f'z c hcj hcs2
        by_cases hdj : (c - 1) / 2 = j
        · rw [hfc, hdj, f'j]
          exact hother c hc1 hcn hdj hcs2
        · have hds : (c - 1) / 2 ≠ s := hcs
          rw [hfc, f'z _ hdj hds]
          exact h1 c hc1 hcn hdj
  · intro c hc1 hcn hdps hs1
    rw [hseq, f'j]
    have hcj : c ≠ j := by omega
    have hcs : c ≠ s := by omega
    rw [f'z c hcj hcs]
    have hA := h1 c hc1 hcn (by omega)
    rw [hdps] at hA
    exact hA

theorem siftDownGo_heap (n : Nat) : ∀ fuel j f, n ≤ fuel + j →
    (∀ c, 1 ≤ c → c < n → (c - 1) / 2 ≠ j → (f ((c - 1) / 2)).when ≤ (f c).when) →
    (∀ c, 1 ≤ c → c < n → (c - 1) / 2 = j → 1 ≤ j →
      (f ((j - 1) / 2)).when ≤ (f c).when) →
    HeapProp n (siftDownGo fuel n f j) := by
  intro fuel
  induction fuel with
  | zero =>
    intro j f hfuel h1 h2
    intro c hc1 hcn
    exact h1 c hc1 hcn (by omega)
  | succ fuel ih =>
    intro j f hfuel h1 h2
    simp only [siftDownGo]
    by_cases hL : 2 * j + 1 < n ∧ (f (2 * j + 1)).when < (f j).when
    · rw [if_pos hL]
      by_cases hR : 2 * j + 1 + 1 < n ∧ (f (2 * j + 1 + 1)).when < (f (2 * j + 1)).when
      · rw [if_pos hR, if_neg (by omega : ¬(2 * j + 1 + 1 = j))]
        have hstep := siftDown_step n j (2 * j + 1 + 1) f
          (fset (fset f j (f (2 * j + 1 + 1))) (2 * j + 1 + 1) (f j))
          (by omega) hR.1 (by omega) (by omega)
          (by
            intro c hc1 hcn hdj hcs
            have hcl : c = 2 * j + 1 := by omega
            subst hcl
            omega)
          (by
            rw [fset_other _ _ _ _ (by omega : j ≠ 2 * j + 1 + 1)]
            exact fset_same _ _ _)
          (fset_same _ _ _)
          (by
            intro z hzj hzs
            rw [fset_other _ _ _ _ hzs, fset_other _ _ _ _ hzj])
          h1 h2
        exact ih (2 * j + 1 + 1) _ (by omega) hstep.1 hstep.2
      · rw [if_neg hR, if_neg (by omega : ¬(2 * j + 1 = j))]
        have hstep := siftDown_step n j (2 * j + 1) f
          (fset (fset f j (f (2 * j + 1))) (2 * j + 1) (f j))
          (by omega) hL.1 (by omega) (by omega)
          (by
            intro c hc1 hcn hdj hcs
            have hcr : c = 2 * j + 1 + 1 := by omega
            subst hcr
            have := hL.2
            omega)
          (by
            rw [fset_other _ _ _ _ (by omega : j ≠ 2 * j + 1)]
            exact fset_same _ _ _)
          (fset_same _ _ _)
          (by
            intro z hzj hzs
            rw [fset_other _ _ _ _ hzs, fset_other _ _ _ _ hzj])
          h1 h2
        exact ih (2 * j + 1) _ (by omega) hstep.1 hstep.2
    · rw [if_neg hL]
      by_cases hR : 2 * j + 1 + 1 < n ∧ (f (2 * j + 1 + 1)).when < (f j).when
      · rw [if_pos hR, if_neg (by omega : ¬(2 * j + 1 + 1 = j))]
        have hstep := siftDown_step n j (2 * j + 1 + 1) f
          (fset (fset f j (f (2 * j + 1 + 1))) (2 * j + 1 + 1) (f j))
          (by omega) hR.1 (by omega) (by omega)
          (by
            intro c hc1 hcn hdj hcs
            have hcl : c = 2 * j + 1 := by omega
            have hnL : ¬((f (2 * j + 1)).when < (f j).when) := by
              intro hcon
              exact hL ⟨by omega, hcon⟩
            subst hcl
            omega)
          (by
            rw [fset_other _ _ _ _ (by omega : j ≠ 2 * j + 1 + 1)]
            exact fset_same _ _ _)
          (fset_same _ _ _)
          (by
            intro z hzj hzs
            rw [fset_other _ _ _ _ hzs, fset_other _ _ _ _ hzj])
          h1 h2
        exact ih (2 * j + 1 + 1) _ (by omega) hstep.1 hstep.2
      · rw [if_neg hR, if_pos rfl]
        intro c hc1 hcn
        by_cases hdj : (c - 1) / 2 = j
        · have hcases : c = 2 * j + 1 ∨ c = 2 * j + 1 + 1 := by omega
          rw [hdj]
          rcases hcases with hc | hc
          · subst hc
            have hnL : ¬((f (2 * j + 1)).when < (f j).when) := by
              intro hcon
              exact hL ⟨by omega, hcon⟩
            omega
          · subst hc
            have hnR : ¬((f (2 * j + 1 + 1)).when < (f j).when) := by
              intro hcon
              exact hR ⟨by omega, hcon⟩
            omega
        · exact h1 c hc1 hcn hdj

/-- Sift-down only permutes entries inside the live prefix. -/
theorem siftDownGo_range (n : Nat) : ∀ fuel f j i, i < n →
    ∃ k, k < n ∧ siftDownGo fuel n f j i = f k := by
  intro fuel
  induction fuel with
  | zero =>
    intro f j i hin
    exact ⟨i, hin, rfl⟩
  | succ fuel ih =>
    intro f j i hin
    simp only [siftDownGo]
    by_cases hL : 2 * j + 1 < n ∧ (f (2 * j + 1)).when < (f j).when
    · rw [if_pos hL]
      by_cases hR : 2 * j + 1 + 1 < n ∧ (f (2 * j + 1 + 1)).when < (f (2 * j + 1)).when
      · rw [if_pos hR, if_neg (by omega : ¬(2 * j + 1 + 1 = j))]
        obtain ⟨k, hk, he⟩ := ih (fset (fset f j (f (2 * j + 1 + 1))) (2 * j + 1 + 1) (f j))
          (2 * j + 1 + 1) i hin
        rw [he]
        by_cases hk1 : k = 2 * j + 1 + 1
        · subst hk1
          rw [fset_same]
          exact ⟨j, by omega, rfl⟩
        · rw [fset_other _ _ _ _ hk1]
          by_cases hk2 : k = j
          · rw [hk2, fset_same]
            exact ⟨2 * j + 1 + 1, hR.1, rfl⟩
          · rw [fset_other _ _ _ _ hk2]
            exact ⟨k, hk, rfl⟩
      · rw [if_neg hR, if_neg (by omega : ¬(2 * j + 1 = j))]
        obtain ⟨k, hk, he⟩ := ih (fset (fset f j (f (2 * j + 1))) (2 * j + 1) (f j))
          (2 * j + 1) i hin
        rw [he]
        by_cases hk1 : k = 2 * j + 1
        · subst hk1
          rw [fset_same]
          exact ⟨j, by omega, rfl⟩
        · rw [fset_other _ _ _ _ hk1]
          by_cases hk2 : k = j
          · rw [hk2, fset_same]
            exact ⟨2 * j + 1, hL.1, rfl⟩
          · rw [fset_other _ _ _ _ hk2]
            exact ⟨k, hk, rfl⟩
    · rw [if_neg hL]
      by_cases hR : 2 * j + 1 + 1 < n ∧ (f (2 * j + 1 + 1)).when < (f j).when
      · rw [if_pos hR, if_neg (by omega : ¬(2 * j + 1 + 1 = j))]
        obtain ⟨k, hk, he⟩ := ih (fset (fset f j (f (2 * j + 1 + 1))) (2 * j + 1 + 1) (f j))
          (2 * j + 1 + 1) i hin
        rw [he]
        by_cases hk1 : k = 2 * j + 1 + 1
        · subst hk1
          rw [fset_same]
          exact ⟨j, by omega, rfl⟩
        · rw [fset_other _ _ _ _ hk1]
          by_cases hk2 : k = j
          · rw [hk2, fset_same]
            exact ⟨2 * j + 1 + 1, hR.1, rfl⟩
          · rw [fset_other _ _ _ _ hk2]
            exact ⟨k, hk, rfl⟩
      · rw [if_neg hR, if_pos rfl]
        exact ⟨i, hin, rfl⟩

/-- `pop_timeout 0` on a non-empty heap: shrinks by one, keeps the heap
property, and every surviving entry is one of the old entries. -/
theorem pop_timeout_spec (h : TimerHeap) (hh : IsHeap h) (hc : 0 < h.count) :
    IsHeap (pop_timeout h 0) ∧ (pop_timeout h 0).count = h.count - 1 ∧
    (∀ i, i < h.count - 1 → ∃ k, k < h.count ∧ (pop_timeout h 0).tq i = h.tq k) := by
  have hnz : ¬(h.count ≤ 0) := by omega
  have hpop : pop_timeout h 0 =
      ⟨h.count - 1, siftDownGo (h.count - 1) (h.count - 1)
        (fset h.tq 0 (h.tq (h.count - 1))) 0⟩ := by
    simp [pop_timeout, hnz]
  rw [hpop]
  refine ⟨?_, rfl, ?_⟩
  · show HeapProp (h.count - 1) _
    refine siftDownGo_heap (h.count - 1) (h.count - 1) 0 _ (by omega) ?_ ?_
    · intro c hc1 hcn hd
      rw [fset_other _ _ _ _ (by omega : c ≠ 0), fset_other _ _ _ _ hd]
      exact hh c hc1 (by omega)
    · intro c hc1 hcn hd hj
      omega
  · intro i hin
    obtain ⟨k, hk, he⟩ := siftDownGo_range (h.count - 1) (h.count - 1)
      (fset h.tq 0 (h.tq (h.count - 1))) 0 i hin
    show ∃ k2, k2 < h.count ∧
      siftDownGo (h.count - 1) (h.count - 1) (fset h.tq 0 (h.tq (h.count - 1))) 0 i = h.tq k2
    rw [he]
    by_cases hk0 : k = 0
    · subst hk0
      rw [fset_same]
      exact ⟨h.count - 1, by omega, rfl⟩
    · rw [fset_other _ _ _ _ hk0]
      exact ⟨k, by omega, rfl⟩

/-- In a heap the root is minimal. -/
theorem heapProp_root_le (n : Nat) (f : Nat → JanetTimeout) (hh : HeapProp n f) :
    ∀ i, i < n → (f 0).when ≤ (f i).when := by
  intro i
  induction i using Nat.strong_induction_on with
  | _ i ih =>
    intro hin
    by_cases h0 : i = 0
    · subst h0
      exact le_refl _
    · have h1 := hh i (by omega) hin
      have h2 := ih ((i - 1) / 2) (by omega) (by omega)
      omega

/-- Draining a heap yields entries in non-decreasing `when` order, and
every drained entry is one of the heap's entries. -/
theorem heapDrainGo_spec : ∀ fuel (h : TimerHeap), IsHeap h → h.count ≤ fuel →
    List.Chain' (fun a b => a.when ≤ b.when) (heapDrainGo fuel h) ∧
    (∀ x ∈ heapDrainGo fuel h, ∃ i, i < h.count ∧ x = h.tq i) := by
  intro fuel
  induction fuel with
  | zero =>
    intro h hh hc
    constructor
    · simp [heapDrainGo]
    · simp [heapDrainGo]
  | succ fuel ih =>
    intro h hh hc
    by_cases h0 : h.count = 0
    · constructor
      · simp [heapDrainGo, h0]
      · simp [heapDrainGo, h0]
    · have hpos : 0 < h.count := by omega
      obtain ⟨hh', hcnt', hrange⟩ := pop_timeout_spec h hh hpos
      have hle : (pop_timeout h 0).count ≤ fuel := by omega
      obtain ⟨ihchain, ihmem⟩ := ih (pop_timeout h 0) hh' hle
      have e1 : heapDrainGo (fuel + 1) h =
          h.tq 0 :: heapDrainGo fuel (pop_timeout h 0) := by
        simp [heapDrainGo, h0]
      rw [e1]
      constructor
      · rw [List.chain'_cons']
        refine ⟨?_, ihchain⟩
        intro y hy
        have hymem : y ∈ heapDrainGo fuel (pop_timeout h 0) :=
          List.mem_of_mem_head? hy
        obtain ⟨i, hi, he⟩ := ihmem y hymem
        obtain ⟨k, hk, he2⟩ := hrange i (by omega)
        rw [he, he2]
        exact heapProp_root_le h.count h.tq hh k hk
      · intro x hx
        rcases List.mem_cons.mp hx with hx0 | hxt
        · exact ⟨0, hpos, hx0⟩
        · obtain ⟨i, hi, he⟩ := ihmem x hxt
          obtain ⟨k, hk, he2⟩ := hrange i (by omega)
          exact ⟨k, hk, by rw [he, he2]⟩

theorem foldl_add_timeout_heap (tos : List JanetTimeout) :
    ∀ h, IsHeap h → IsHeap (tos.foldl add_timeout h) := by
  induction tos with
  | nil => intro h hh; exact hh
  | cons t ts ih =>
    intro h hh
    exact ih _ (add_timeout_heap h t hh)

theorem isHeap_empty : IsHeap emptyHeap := by
  intro c hc1 hcn
  simp [emptyHeap] at hcn

/-! ## Fibers and the scheduler (`janet_vm_spawn`)

The fiber VM is external to ev.c; the model keeps exactly the per-fiber
state ev.c reads and writes: the `JANET_FIBER_FLAG_SCHEDULED` bit, the
`sched_id` epoch and the `waiting` back-reference. Values are shallowly
embedded: only the shapes ev.c itself constructs are distinguished
(value boxing is external). -/

inductive JanetSignal where
  | ok
  | error
  | event
deriving DecidableEq, Repr

inductive JanetV where
  | nil
  | base (n : Nat)
  | str (s : String)
  | channel (cid : Nat)
  | fiberv (fid : Nat)
  | tupleGive (cid : Nat)
  | tupleTake (cid : Nat) (v : JanetV)
deriving DecidableEq, Repr

structure FiberRec where
  sched_id : Nat
  scheduled : Bool
  waiting : Option Nat
deriving DecidableEq, Repr

structure JanetTask where
  fiber : Nat
  value : JanetV
  sig : JanetSignal
deriving DecidableEq, Repr

structure EvState where
  fibers : Nat → FiberRec
  spawn : JanetQueue JanetTask

/-- `janet_schedule_signal`: a no-op when the fiber is already scheduled;
otherwise set the flag, bump `sched_id` and push a task (a push failure
at the hard cap is ignored, as in the C code). -/
def janet_schedule_signal (s : EvState) (fid : Nat) (v : JanetV)
    (sig : JanetSignal) : EvState :=
  let f := s.fibers fid
  if f.scheduled then s
  else
    { fibers := fset s.fibers fid { f with scheduled := true, sched_id := f.sched_id + 1 },
      spawn := (janet_q_push s.spawn ⟨fid, v, sig⟩).1 }

/-- `janet_cancel`. -/
def janet_cancel (s : EvState) (fid : Nat) (v : JanetV) : EvState :=
  janet_schedule_signal s fid v JanetSignal.error

/-- `janet_schedule`. -/
def janet_schedule (s : EvState) (fid : Nat) (v : JanetV) : EvState :=
  janet_schedule_signal s fid v JanetSignal.ok

/-- The ev.c side of `run_one`: clear the popped fiber's SCHEDULED flag
(`janet_continue_signal` itself is external to ev.c). -/
def run_one_enter (s : EvState) (fid : Nat) : EvState :=
  { s with fibers := fset s.fibers fid { s.fibers fid with scheduled := false } }

/-- One run-queue step of `janet_loop1`: pop a task and perform
`run_one`'s bookkeeping for its fiber. -/
def runTaskStep (s : EvState) : EvState :=
  match janet_q_pop s.spawn with
  | none => s
  | some (t, sp) => run_one_enter { s with spawn := sp } t.fiber

/-- Transitions that touch the run queue. Every enqueue in ev.c goes
through `janet_schedule_signal` (the only push to `janet_vm_spawn`), and
only the drain loop in `janet_loop1` dequeues; the effects of running a
fiber are themselves sequences of `sched` steps. -/
inductive EvStep : EvState → EvState → Prop where
  | sched (s : EvState) (fid : Nat) (v : JanetV) (sig : JanetSignal) :
      EvStep s (janet_schedule_signal s fid v sig)
  | runTask (s : EvState) : EvStep s (runTaskStep s)

def evInit : EvState :=
  ⟨fun _ => ⟨0, false, none⟩, janet_q_init ⟨0, JanetV.nil, JanetSignal.ok⟩⟩

def Reachable (s : EvState) : Prop :=
  Relation.ReflTransGen EvStep evInit s

/-- The run-queue invariant: the queue is well formed, holds at most one
task per fiber, and every queued fiber has its SCHEDULED flag set. -/
def SpawnInv (s : EvState) : Prop :=
  WfQ s.spawn ∧
  (qlist s.spawn).Pairwise (fun a b => a.fiber ≠ b.fiber) ∧
  (∀ t ∈ qlist s.spawn, (s.fibers t.fiber).scheduled = true)

theorem spawnInv_init : SpawnInv evInit := by
  have hq : evInit.spawn = janet_q_init (⟨0, JanetV.nil, JanetSignal.ok⟩ : JanetTask) := rfl
  refine ⟨?_, ?_, ?_⟩
  · rw [hq]
    exact wfq_init _
  · rw [hq, qlist_init]
    exact List.Pairwise.nil
  · intro t ht
    rw [hq, qlist_init] at ht
    simp at ht

theorem spawnInv_sched (s : EvState) (fid : Nat) (v : JanetV) (sig : JanetSignal)
    (hinv : SpawnInv s) : SpawnInv (janet_schedule_signal s fid v sig) := by
  obtain ⟨hw, hpair, hflag⟩ := hinv
  unfold janet_schedule_signal
  by_cases hs : (s.fibers fid).scheduled
  · simp only [if_pos hs]
    exact ⟨hw, hpair, hflag⟩
  · simp only [if_neg hs]
    have hnotin : ∀ t ∈ qlist s.spawn, t.fiber ≠ fid := by
      intro t ht heq
      have hfl := hflag t ht
      rw [heq] at hfl
      exact hs (by rw [hfl])
    by_cases hcap : janet_q_count s.spawn + 1 ≥ JANET_MAX_Q_CAPACITY
    · have hfail := janet_q_push_fail s.spawn
        (⟨fid, v, sig⟩ : JanetTask) hw hcap
      rw [hfail]
      refine ⟨hw, hpair, ?_⟩
      intro t ht
      dsimp only at ht ⊢
      by_cases htf : t.fiber = fid
      · exact absurd htf (hnotin t ht)
      · rw [fset_other _ _ _ _ htf]
        exact hflag t ht
    · obtain ⟨hok, hw2, hql⟩ := janet_q_push_ok s.spawn
        (⟨fid, v, sig⟩ : JanetTask) hw (by omega)
      refine ⟨hw2, ?_, ?_⟩
      · dsimp only
        rw [hql, List.pairwise_append]
        refine ⟨hpair, List.pairwise_singleton _ _, ?_⟩
        intro a ha b hb
        simp at hb
        rw [hb]
        exact hnotin a ha
      · intro t ht
        dsimp only at ht ⊢
        rw [hql] at ht
        rcases List.mem_append.mp ht with hin | hlast
        · by_cases htf : t.fiber = fid
          · exact absurd htf (hnotin t hin)
          · rw [fset_other _ _ _ _ htf]
            exact hflag t hin
        · simp at hlast
          rw [hlast, fset_same]

theorem spawnInv_runTask (s : EvState) (hinv : SpawnInv s) :
    SpawnInv (runTaskStep s) := by
  obtain ⟨hw, hpair, hflag⟩ := hinv
  by_cases hne : s.spawn.head = s.spawn.tail
  · have hnone : janet_q_pop s.spawn = none := by simp [janet_q_pop, hne]
    unfold runTaskStep
    rw [hnone]
    exact ⟨hw, hpair, hflag⟩
  · obtain ⟨q2, hpop, hw2, hql, _, _, _⟩ := janet_q_pop_some s.spawn hw hne
    unfold runTaskStep
    rw [hpop]
    rw [hql] at hpair hflag
    have hpair2 := List.pairwise_cons.mp hpair
    refine ⟨hw2, hpair2.2, ?_⟩
    intro u hu
    dsimp only [run_one_enter] at hu ⊢
    have hut : u.fiber ≠ (s.spawn.data s.spawn.head).fiber := by
      intro hcon
      exact hpair2.1 u hu hcon.symm
    rw [fset_other _ _ _ _ hut]
    exact hflag u (List.mem_cons_of_mem _ hu)

/-- Every reachable scheduler state satisfies the run-queue invariant. -/
theorem spawnInv_reachable (s : EvState) (hr : Reachable s) : SpawnInv s := by
  induction hr with
  | refl => exact spawnInv_init
  | tail hsteps hstep ih =>
    cases hstep with
    | sched fid v sig => exact spawnInv_sched _ fid v sig ih
    | runTask => exact spawnInv_runTask _ ih

/-! ## Pollables and listeners

`JanetListenerState` carries a machine function and private trailing
bytes that are external to the bookkeeping verified here; the model keeps
the identity (`lid`, the allocation address), `_mask` and the fiber
back-reference. Mask bit values come from janet.h, which is outside
src/; modelled from the spec: READ and WRITE are the two event bits and
SPAWNER marks listeners not tied to a fiber — only their distinctness
matters. -/

def JANET_ASYNC_LISTEN_READ : Nat := 1
def JANET_ASYNC_LISTEN_WRITE : Nat := 2
def JANET_ASYNC_LISTEN_SPAWNER : Nat := 4

structure ListenerState where
  lid : Nat
  mask : Nat
  fiber : Option Nat
deriving DecidableEq, Repr

structure JanetPollable where
  mask : Nat
  listeners : List ListenerState
deriving DecidableEq, Repr

/-- `janet_listen_impl`: panics on a duplicate event bit or when the
current fiber is already waiting; otherwise allocates the listener
(attaching the fiber unless SPAWNER was requested), forces the SPAWNER
bit into its mask, ORs that mask into the pollable's aggregate mask and
prepends the listener to the list.  (`machine(INIT)` and the
active-listener counter are external to these claims.) -/
def janet_listen_impl (p : JanetPollable) (fibers : Nat → FiberRec)
    (cur : Nat) (mask : Nat) (newlid : Nat) :
    Except String (JanetPollable × (Nat → FiberRec) × ListenerState) :=
  if p.mask &&& mask ≠ 0 then
    Except.error "cannot listen for duplicate event on pollable"
  else if (fibers cur).waiting ≠ none then
    Except.error "current fiber is already waiting for event"
  else
    let spawner := mask &&& JANET_ASYNC_LISTEN_SPAWNER ≠ 0
    let fib := if spawner then none else some cur
    let fibers2 := if spawner then fibers
      else fset fibers cur { fibers cur with waiting := some newlid }
    let mask2 := mask ||| JANET_ASYNC_LISTEN_SPAWNER
    let st : ListenerState := ⟨newlid, mask2, fib⟩
    Except.ok (⟨p.mask ||| mask2, st :: p.listeners⟩, fibers2, st)

/-- `_mask &= ~state->_mask`: clear the bits of `b` from `a`, written
with xor/and so that it evaluates on concrete inputs
(`a &~ b = a ^^^ (a &&& b)`). -/
def maskClear (a b : Nat) : Nat := a ^^^ (a &&& b)

theorem maskClear_testBit (a b : Nat) (i : Nat) :
    (maskClear a b).testBit i = (a.testBit i && !(b.testBit i)) := by
  unfold maskClear
  rw [Nat.testBit_xor, Nat.testBit_and]
  cases a.testBit i <;> cases b.testBit i <;> rfl

/-- Removal from the singly linked listener list (by identity, as the C
code compares pointers). -/
def removeListener : List ListenerState → Nat → List ListenerState
  | [], _ => []
  | st :: rest, lid => if st.lid = lid then rest else st :: removeListener rest lid

/-- `janet_unlisten_impl`: `machine(DEINIT)` (external), remove the
listener from the pollable's list (the C code asserts it is present),
clear its mask bits from the aggregate mask (`_mask &= ~state->_mask`),
and clear the fiber's `waiting` back-reference when it points here. -/
def janet_unlisten_impl (p : JanetPollable) (fibers : Nat → FiberRec)
    (lid : Nat) : JanetPollable × (Nat → FiberRec) :=
  match p.listeners.find? (fun st => st.lid = lid) with
  | none => (p, fibers)
  | some st =>
      let p2 : JanetPollable :=
        ⟨maskClear p.mask st.mask, removeListener p.listeners lid⟩
      let fibers2 :=
        match st.fiber with
        | none => fibers
        | some fid =>
            if (fibers fid).waiting = some lid
            then fset fibers fid { fibers fid with waiting := none }
            else fibers
      (p2, fibers2)

/-- `janet_fiber_did_resume`: unlisten the fiber's waiting listener, if
any. -/
def janet_fiber_did_resume (p : JanetPollable) (fibers : Nat → FiberRec)
    (fid : Nat) : JanetPollable × (Nat → FiberRec) :=
  match (fibers fid).waiting with
  | none => (p, fibers)
  | some lid => janet_unlisten_impl p fibers lid

/-- Aggregate of the listeners' masks. -/
def orMasks (l : List ListenerState) : Nat :=
  l.foldr (fun st acc => st.mask ||| acc) 0

/-- Invariant claimed by the spec: the pollable's aggregate mask is the
OR of its listeners' masks. -/
def MaskInv (p : JanetPollable) : Prop :=
  p.mask = orMasks p.listeners

instance (p : JanetPollable) : Decidable (MaskInv p) := by
  unfold MaskInv; infer_instance

theorem ldiff_lor_left (a b c : Nat) :
    maskClear (a ||| b) c = maskClear a c ||| maskClear b c := by
  apply Nat.eq_of_testBit_eq
  intro i
  simp [maskClear_testBit, Nat.testBit_lor, Bool.and_or_distrib_right]

theorem ldiff_self_zero (a : Nat) : maskClear a a = 0 := by
  apply Nat.eq_of_testBit_eq
  intro i
  simp [maskClear_testBit]

theorem ldiff_lor_self (a b : Nat) :
    maskClear (b ||| a) b = maskClear a b := by
  rw [ldiff_lor_left, ldiff_self_zero]
  simp

/-- After removing a listener, `OR(all) &~ removed = OR(survivors) &~ removed`. -/
theorem orMasks_remove (l : List ListenerState) (lid : Nat) (st : ListenerState)
    (hfind : l.find? (fun u => u.lid = lid) = some st) :
    maskClear (orMasks l) st.mask =
    maskClear (orMasks (removeListener l lid)) st.mask := by
  induction l with
  | nil => simp [List.find?] at hfind
  | cons u rest ih =>
    by_cases hu : u.lid = lid
    · have hst : st = u := by
        rw [List.find?] at hfind
        simp [hu] at hfind
        exact hfind.symm
      subst hst
      show maskClear (st.mask ||| orMasks rest) st.mask = _
      rw [ldiff_lor_self]
      unfold removeListener
      rw [if_pos hu]
    · have hfind2 : rest.find? (fun u => u.lid = lid) = some st := by
        rw [List.find?] at hfind
        simp [hu] at hfind
        exact hfind
      show maskClear (u.mask ||| orMasks rest) st.mask = _
      unfold removeListener
      rw [if_neg hu]
      show _ = maskClear (u.mask ||| orMasks (removeListener rest lid)) st.mask
      rw [ldiff_lor_left, ldiff_lor_left, ih hfind2]

/-- `janet_listen_impl` preserves the mask invariant. -/
theorem janet_listen_impl_maskInv (p : JanetPollable) (fibers : Nat → FiberRec)
    (cur mask newlid : Nat) (p2 : JanetPollable) (fibers2 : Nat → FiberRec)
    (st : ListenerState) (hinv : MaskInv p)
    (h : janet_listen_impl p fibers cur mask newlid = Except.ok (p2, fibers2, st)) :
    MaskInv p2 ∧ p2.listeners = st :: p.listeners ∧
    st.mask = mask ||| JANET_ASYNC_LISTEN_SPAWNER := by
  unfold janet_listen_impl at h
  by_cases h1 : p.mask &&& mask ≠ 0
  · rw [if_pos h1] at h
    exact absurd h (by simp)
  · rw [if_neg h1] at h
    by_cases h2 : (fibers cur).waiting ≠ none
    · rw [if_pos h2] at h
      exact absurd h (by simp)
    · rw [if_neg h2] at h
      simp only [Except.ok.injEq, Prod.mk.injEq] at h
      obtain ⟨hp2, _, hst⟩ := h
      subst hst
      refine ⟨?_, by rw [← hp2], rfl⟩
      rw [← hp2]
      show p.mask ||| (mask ||| JANET_ASYNC_LISTEN_SPAWNER) =
        orMasks (⟨newlid, mask ||| JANET_ASYNC_LISTEN_SPAWNER, _⟩ :: p.listeners)
      show _ = (mask ||| JANET_ASYNC_LISTEN_SPAWNER) ||| orMasks p.listeners
      rw [hinv]
      rw [Nat.lor_comm]

/-- `janet_unlisten_impl` on a present listener: the new aggregate mask is
the OR of the surviving listeners' masks with the removed listener's
bits cleared. -/
theorem janet_unlisten_impl_mask (p : JanetPollable) (fibers : Nat → FiberRec)
    (lid : Nat) (st : ListenerState) (hinv : MaskInv p)
    (hfind : p.listeners.find? (fun u => u.lid = lid) = some st) :
    (janet_unlisten_impl p fibers lid).1.mask =
      maskClear (orMasks ((janet_unlisten_impl p fibers lid).1.listeners)) st.mask ∧
    (janet_unlisten_impl p fibers lid).1.listeners = removeListener p.listeners lid := by
  unfold janet_unlisten_impl
  rw [hfind]
  refine ⟨?_, rfl⟩
  show maskClear p.mask st.mask = _
  rw [hinv, orMasks_remove p.listeners lid st hfind]

/-! ## Channels -/

inductive ChanMode where
  | item
  | choiceRead
  | choiceWrite
deriving DecidableEq, Repr

structure JanetChannelPending where
  fiber : Nat
  sched_id : Nat
  mode : ChanMode
deriving DecidableEq, Repr

structure JanetChannel where
  items : JanetQueue JanetV
  read_pending : JanetQueue JanetChannelPending
  write_pending : JanetQueue JanetChannelPending
  limit : Nat

/-- `janet_chan_init` (the limit comes from `janet_optnat`, hence is a
non-negative int). -/
def janet_chan_init (limit : Nat) : JanetChannel :=
  ⟨janet_q_init JanetV.nil,
   janet_q_init ⟨0, 0, ChanMode.item⟩,
   janet_q_init ⟨0, 0, ChanMode.item⟩,
   limit⟩

/-- `make_write_result`: the tuple `[:give ch]`. -/
def make_write_result (cid : Nat) : JanetV := JanetV.tupleGive cid

/-- `make_read_result`: the tuple `[:take ch x]`. -/
def make_read_result (cid : Nat) (x : JanetV) : JanetV := JanetV.tupleTake cid x

/-- The reader-skipping do-while loop at the top of `janet_channel_push`:
pop pending readers, discarding stale ones (`sched_id` mismatch), until a
live one is found or the queue is empty.  The C loop terminates because
every iteration removes an entry; the embedding takes an explicit bound
and the single call site passes `count + 1`, which the lemmas below show
is never exhausted. -/
def popLiveReader (fibers : Nat → FiberRec) :
    Nat → JanetQueue JanetChannelPending →
    Option JanetChannelPending × JanetQueue JanetChannelPending
  | 0, q => (none, q)
  | fuel + 1, q =>
      match janet_q_pop q with
      | none => (none, q)
      | some (r, q2) =>
          if r.sched_id = (fibers r.fiber).sched_id then (some r, q2)
          else popLiveReader fibers fuel q2

/-- `janet_channel_push`: returns the updated channel, the updated
scheduler state and whether the caller should block; `Except.error x`
models `janet_panicf("channel overflow", x)`.  `cid` is the channel's
identity (its address in C), `cur` the current root fiber. -/
def janet_channel_push (s : EvState) (cid : Nat) (ch : JanetChannel)
    (x : JanetV) (is_choice : Bool) (cur : Nat) :
    Except JanetV (JanetChannel × EvState × Bool) :=
  match popLiveReader s.fibers (janet_q_count ch.read_pending + 1) ch.read_pending with
  | (none, rp) =>
      let pr := janet_q_push ch.items x
      if pr.2 then Except.error x
      else if janet_q_count pr.1 > ch.limit then
        let pending : JanetChannelPending :=
          ⟨cur, (s.fibers cur).sched_id, if is_choice then ChanMode.choiceWrite else ChanMode.item⟩
        let wp2 := (janet_q_push ch.write_pending pending).1
        Except.ok ({ ch with items := pr.1, read_pending := rp, write_pending := wp2 },
                   s, true)
      else Except.ok ({ ch with items := pr.1, read_pending := rp }, s, false)
  | (some r, rp) =>
      let v := if r.mode = ChanMode.choiceRead then make_read_result cid x else x
      Except.ok ({ ch with read_pending := rp }, janet_schedule s r.fiber v, false)

/-- `janet_channel_pop`: returns the updated channel, the updated
scheduler state and `some item` when an item was obtained (`none` means
the caller should block; a pending writer is popped without any
`sched_id` comparison). -/
def janet_channel_pop (s : EvState) (cid : Nat) (ch : JanetChannel)
    (is_choice : Bool) (cur : Nat) :
    JanetChannel × EvState × Option JanetV :=
  match janet_q_pop ch.items with
  | none =>
      let pending : JanetChannelPending :=
        ⟨cur, (s.fibers cur).sched_id, if is_choice then ChanMode.choiceRead else ChanMode.item⟩
      ({ ch with read_pending := (janet_q_push ch.read_pending pending).1 }, s, none)
  | some (item, items2) =>
      match janet_q_pop ch.write_pending with
      | none => ({ ch with items := items2 }, s, some item)
      | some (w, wp) =>
          let v := if w.mode = ChanMode.choiceWrite then make_write_result cid
                   else JanetV.channel cid
          ({ ch with items := items2, write_pending := wp },
           janet_schedule s w.fiber v, some item)

/-- List-level specification of the reader-skipping loop. -/
def skipStale (fibers : Nat → FiberRec) :
    List JanetChannelPending →
    Option JanetChannelPending × List JanetChannelPending
  | [] => (none, [])
  | r :: rest =>
      if r.sched_id = (fibers r.fiber).sched_id then (some r, rest)
      else skipStale fibers rest

def WfChan (ch : JanetChannel) : Prop :=
  WfQ ch.items ∧ WfQ ch.read_pending ∧ WfQ ch.write_pending

instance (ch : JanetChannel) : Decidable (WfChan ch) := by
  unfold WfChan; infer_instance

theorem popLiveReader_spec (fibers : Nat → FiberRec) :
    ∀ fuel (q : JanetQueue JanetChannelPending), WfQ q →
    (qlist q).length < fuel →
    ∃ q2, popLiveReader fibers fuel q = ((skipStale fibers (qlist q)).1, q2) ∧
      WfQ q2 ∧ qlist q2 = (skipStale fibers (qlist q)).2 := by
  intro fuel
  induction fuel with
  | zero =>
    intro q hw hlen
    omega
  | succ fuel ih =>
    intro q hw hlen
    by_cases hne : q.head = q.tail
    · have hemp : qlist q = [] := (qlist_empty_iff q hw).mpr hne
      have hnone : janet_q_pop q = none := by simp [janet_q_pop, hne]
      refine ⟨q, ?_, hw, ?_⟩
      · simp [popLiveReader, hnone, hemp, skipStale]
      · simp [hemp, skipStale]
    · obtain ⟨q2, hpop, hw2, hql, _, _, _⟩ := janet_q_pop_some q hw hne
      have hstep : popLiveReader fibers (fuel + 1) q =
          (if (q.data q.head).sched_id = (fibers (q.data q.head).fiber).sched_id
           then (some (q.data q.head), q2)
           else popLiveReader fibers fuel q2) := by
        simp [popLiveReader, hpop]
      have hss : skipStale fibers (qlist q) =
          (if (q.data q.head).sched_id = (fibers (q.data q.head).fiber).sched_id
           then (some (q.data q.head), qlist q2)
           else skipStale fibers (qlist q2)) := by
        rw [hql]
        simp [skipStale]
      by_cases hlive : (q.data q.head).sched_id = (fibers (q.data q.head).fiber).sched_id
      · rw [if_pos hlive] at hstep hss
        exact ⟨q2, by rw [hstep, hss], hw2, by rw [hss]⟩
      · rw [if_neg hlive] at hstep hss
        have hlen2 : (qlist q2).length < fuel := by
          have : (qlist q).length = (qlist q2).length + 1 := by rw [hql]; simp
          omega
        obtain ⟨q3, he, hw3, hq3⟩ := ih q2 hw2 hlen2
        exact ⟨q3, by rw [hstep, hss, he], hw3, by rw [hss, hq3]⟩

/-- Full behaviour of `janet_channel_push` (C1): skip stale readers; hand
the value to a live reader (scheduling it, leaving `items` untouched) or
park the value, blocking exactly when the new count exceeds the limit. -/
theorem janet_channel_push_spec (s : EvState) (cid : Nat) (ch : JanetChannel)
    (x : JanetV) (ic : Bool) (cur : Nat)
    (hwf : WfChan ch)
    (hitems : janet_q_count ch.items + 1 < JANET_MAX_Q_CAPACITY)
    (hwp : janet_q_count ch.write_pending + 1 < JANET_MAX_Q_CAPACITY) :
    match skipStale s.fibers (qlist ch.read_pending) with
    | (some r, rest) =>
        ∃ rp2, janet_channel_push s cid ch x ic cur =
            Except.ok ({ ch with read_pending := rp2 },
              janet_schedule s r.fiber
                (if r.mode = ChanMode.choiceRead then make_read_result cid x else x),
              false) ∧
          WfQ rp2 ∧ qlist rp2 = rest
    | (none, rest) =>
        ∃ items2 rp2 wp2 b,
          janet_channel_push s cid ch x ic cur =
            Except.ok ({ ch with items := items2, read_pending := rp2,
                                 write_pending := wp2 }, s, b) ∧
          WfQ items2 ∧ WfQ rp2 ∧ WfQ wp2 ∧
          qlist items2 = qlist ch.items ++ [x] ∧
          qlist rp2 = rest ∧
          (b = true ↔ janet_q_count ch.items + 1 > ch.limit) ∧
          (b = true → qlist wp2 = qlist ch.write_pending ++
            [⟨cur, (s.fibers cur).sched_id,
              if ic then ChanMode.choiceWrite else ChanMode.item⟩]) ∧
          (b = false → wp2 = ch.write_pending) := by
  obtain ⟨hwi, hwr, hww⟩ := hwf
  have hlen : (qlist ch.read_pending).length < janet_q_count ch.read_pending + 1 := by
    rw [janet_q_count_eq_length _ hwr]
    omega
  obtain ⟨rp2, hplr, hwrp2, hrpl⟩ :=
    popLiveReader_spec s.fibers (janet_q_count ch.read_pending + 1)
      ch.read_pending hwr hlen
  cases hskip : skipStale s.fibers (qlist ch.read_pending) with
  | mk res rest =>
    rw [hskip] at hplr hrpl
    cases res with
    | some r =>
      refine ⟨rp2, ?_, hwrp2, hrpl⟩
      simp only [janet_channel_push, hplr]
    | none =>
      obtain ⟨hb, hwi2, hqi⟩ := janet_q_push_ok ch.items x hwi hitems
      have hcount : janet_q_count (janet_q_push ch.items x).1 =
          janet_q_count ch.items + 1 := by
        rw [janet_q_count_eq_length _ hwi2, hqi, List.length_append,
            ← janet_q_count_eq_length _ hwi]
        simp
      by_cases hlim : janet_q_count ch.items + 1 > ch.limit
      · obtain ⟨hbw, hww2, hqw⟩ := janet_q_push_ok ch.write_pending
          (⟨cur, (s.fibers cur).sched_id,
            if ic then ChanMode.choiceWrite else ChanMode.item⟩ : JanetChannelPending)
          hww hwp
        refine ⟨(janet_q_push ch.items x).1, rp2,
          (janet_q_push ch.write_pending
            (⟨cur, (s.fibers cur).sched_id,
              if ic then ChanMode.choiceWrite else ChanMode.item⟩ : JanetChannelPending)).1,
          true, ?_, hwi2, hwrp2, hww2, hqi, hrpl, ?_, ?_, ?_⟩
        · simp only [janet_channel_push, hplr, hb, hcount]
          rw [if_neg (by simp), if_pos hlim]
        · simp [hlim]
        · intro hx
          exact hqw
        · intro hx
          simp at hx
      · refine ⟨(janet_q_push ch.items x).1, rp2, ch.write_pending,
          false, ?_, hwi2, hwrp2, hww, hqi, hrpl, ?_, ?_, ?_⟩
        · simp only [janet_channel_push, hplr, hb, hcount]
          rw [if_neg (by simp), if_neg hlim]
        · simp [hlim]
        · intro hx
          simp at hx
        · intro hx
          rfl

/-- Full behaviour of `janet_channel_pop` (C2): block (registering a
pending reader) exactly when `items` is empty; otherwise take the front
item and wake at most one pending writer, without any staleness check. -/
theorem janet_channel_pop_spec (s : EvState) (cid : Nat) (ch : JanetChannel)
    (ic : Bool) (cur : Nat)
    (hwf : WfChan ch)
    (hrp : janet_q_count ch.read_pending + 1 < JANET_MAX_Q_CAPACITY) :
    match qlist ch.items with
    | [] =>
        ∃ rp2, janet_channel_pop s cid ch ic cur =
            ({ ch with read_pending := rp2 }, s, none) ∧
          WfQ rp2 ∧ qlist rp2 = qlist ch.read_pending ++
            [⟨cur, (s.fibers cur).sched_id,
              if ic then ChanMode.choiceRead else ChanMode.item⟩]
    | x :: rest =>
        ∃ items2, WfQ items2 ∧ qlist items2 = rest ∧
          match qlist ch.write_pending with
          | [] => janet_channel_pop s cid ch ic cur =
              ({ ch with items := items2 }, s, some x)
          | w :: wrest =>
              ∃ wp2, WfQ wp2 ∧ qlist wp2 = wrest ∧
                janet_channel_pop s cid ch ic cur =
                  ({ ch with items := items2, write_pending := wp2 },
                   janet_schedule s w.fiber
                     (if w.mode = ChanMode.choiceWrite then make_write_result cid
                      else JanetV.channel cid),
                   some x) := by
  obtain ⟨hwi, hwr, hww⟩ := hwf
  cases hils : qlist ch.items with
  | nil =>
    have hne : ch.items.head = ch.items.tail := (qlist_empty_iff _ hwi).mp hils
    have hnone : janet_q_pop ch.items = none := by simp [janet_q_pop, hne]
    obtain ⟨hbr, hwr2, hqr⟩ := janet_q_push_ok ch.read_pending
      (⟨cur, (s.fibers cur).sched_id,
        if ic then ChanMode.choiceRead else ChanMode.item⟩ : JanetChannelPending)
      hwr hrp
    refine ⟨(janet_q_push ch.read_pending
      (⟨cur, (s.fibers cur).sched_id,
        if ic then ChanMode.choiceRead else ChanMode.item⟩ : JanetChannelPending)).1,
      ?_, hwr2, hqr⟩
    simp only [janet_channel_pop, hnone]
  | cons x rest =>
    have hne : ch.items.head ≠ ch.items.tail := by
      intro hcon
      rw [(qlist_empty_iff _ hwi).mpr hcon] at hils
      exact List.noConfusion hils
    obtain ⟨q2, hpop, hwq2, hql, _, _, _⟩ := janet_q_pop_some ch.items hwi hne
    rw [hils] at hql
    have hx : ch.items.data ch.items.head = x := by
      injection hql with h1 h2
      exact h1.symm
    have hq2l : qlist q2 = rest := by
      injection hql with h1 h2
      exact h2.symm
    refine ⟨q2, hwq2, hq2l, ?_⟩
    cases hwls : qlist ch.write_pending with
    | nil =>
      have hwne : ch.write_pending.head = ch.write_pending.tail :=
        (qlist_empty_iff _ hww).mp hwls
      have hwnone : janet_q_pop ch.write_pending = none := by
        simp [janet_q_pop, hwne]
      simp only [janet_channel_pop, hpop, hwnone, hx]
    | cons w wrest =>
      have hwne : ch.write_pending.head ≠ ch.write_pending.tail := by
        intro hcon
        rw [(qlist_empty_iff _ hww).mpr hcon] at hwls
        exact List.noConfusion hwls
      obtain ⟨wq2, hwpop, hwwq2, hwql, _, _, _⟩ := janet_q_pop_some ch.write_pending hww hwne
      rw [hwls] at hwql
      have hwx : ch.write_pending.data ch.write_pending.head = w := by
        injection hwql with h1 h2
        exact h1.symm
      have hwq2l : qlist wq2 = wrest := by
        injection hwql with h1 h2
        exact h2.symm
      refine ⟨wq2, hwwq2, hwq2l, ?_⟩
      simp only [janet_channel_pop, hpop, hwpop, hx, hwx]

/-! ## The channel counting invariant (C3) -/

/-- Invariant: the item count never exceeds the limit plus the number of
parked writers (each blocked writer owns exactly one parked item). -/
def ChanInv (ch : JanetChannel) : Prop :=
  janet_q_count ch.items ≤ ch.limit + janet_q_count ch.write_pending

instance (ch : JanetChannel) : Decidable (ChanInv ch) := by
  unfold ChanInv; infer_instance

theorem chanInv_init (limit : Nat) :
    ChanInv (janet_chan_init limit) ∧ WfChan (janet_chan_init limit) := by
  constructor
  · show janet_q_count (janet_q_init JanetV.nil) ≤ _
    simp [janet_q_count, janet_q_init]
  · exact ⟨wfq_init _, wfq_init _, wfq_init _⟩

theorem chanInv_push (s : EvState) (cid : Nat) (ch : JanetChannel)
    (x : JanetV) (ic : Bool) (cur : Nat)
    (hwf : WfChan ch)
    (hitems : janet_q_count ch.items + 1 < JANET_MAX_Q_CAPACITY)
    (hwp : janet_q_count ch.write_pending + 1 < JANET_MAX_Q_CAPACITY)
    (hinv : ChanInv ch)
    (ch2 : JanetChannel) (s2 : EvState) (b : Bool)
    (h : janet_channel_push s cid ch x ic cur = Except.ok (ch2, s2, b)) :
    ChanInv ch2 ∧ WfChan ch2 := by
  have hspec := janet_channel_push_spec s cid ch x ic cur hwf hitems hwp
  obtain ⟨hwi, hwr, hww⟩ := hwf
  cases hskip : skipStale s.fibers (qlist ch.read_pending) with
  | mk res rest =>
    rw [hskip] at hspec
    cases res with
    | some r =>
      obtain ⟨rp2, heq, hwrp2, hrpl⟩ := hspec
      rw [heq] at h
      simp only [Except.ok.injEq, Prod.mk.injEq] at h
      obtain ⟨hch2, _, _⟩ := h
      rw [← hch2]
      exact ⟨hinv, hwi, hwrp2, hww⟩
    | none =>
      obtain ⟨items2, rp2, wp2, bb, heq, hwi2, hwrp2, hwwp2, hqi, hqr, hbiff, hbt, hbf⟩ :=
        hspec
      rw [heq] at h
      simp only [Except.ok.injEq, Prod.mk.injEq] at h
      obtain ⟨hch2, _, hb⟩ := h
      rw [← hch2]
      have hc2 : janet_q_count items2 = janet_q_count ch.items + 1 := by
        rw [janet_q_count_eq_length _ hwi2, hqi, List.length_append,
            ← janet_q_count_eq_length _ hwi]
        simp
      refine ⟨?_, hwi2, hwrp2, hwwp2⟩
      show janet_q_count items2 ≤ ch.limit + janet_q_count wp2
      cases bb with
      | true =>
        have hqw := hbt rfl
        have hcw : janet_q_count wp2 = janet_q_count ch.write_pending + 1 := by
          rw [janet_q_count_eq_length _ hwwp2, hqw, List.length_append,
              ← janet_q_count_eq_length _ hww]
          simp
        rw [hc2, hcw]
        unfold ChanInv at hinv
        omega
      | false =>
        have hwp2 := hbf rfl
        rw [hwp2, hc2]
        have hnb : ¬(janet_q_count ch.items + 1 > ch.limit) := by
          intro hcon
          have := hbiff.mpr hcon
          simp at this
        omega

theorem chanInv_pop (s : EvState) (cid : Nat) (ch : JanetChannel)
    (ic : Bool) (cur : Nat)
    (hwf : WfChan ch)
    (hrp : janet_q_count ch.read_pending + 1 < JANET_MAX_Q_CAPACITY)
    (hinv : ChanInv ch)
    (ch2 : JanetChannel) (s2 : EvState) (r : Option JanetV)
    (h : janet_channel_pop s cid ch ic cur = (ch2, s2, r)) :
    ChanInv ch2 ∧ WfChan ch2 := by
  have hspec := janet_channel_pop_spec s cid ch ic cur hwf hrp
  obtain ⟨hwi, hwr, hww⟩ := hwf
  cases hils : qlist ch.items with
  | nil =>
    rw [hils] at hspec
    obtain ⟨rp2, heq, hwrp2, hqr⟩ := hspec
    rw [heq] at h
    simp only [Prod.mk.injEq] at h
    obtain ⟨hch2, _, _⟩ := h
    rw [← hch2]
    exact ⟨hinv, hwi, hwrp2, hww⟩
  | cons x rest =>
    rw [hils] at hspec
    obtain ⟨items2, hwi2, hq2, hrest⟩ := hspec
    have hc2 : janet_q_count items2 + 1 = janet_q_count ch.items := by
      rw [janet_q_count_eq_length _ hwi2, hq2, janet_q_count_eq_length _ hwi, hils]
      simp
    cases hwls : qlist ch.write_pending with
    | nil =>
      rw [hwls] at hrest
      rw [hrest] at h
      simp only [Prod.mk.injEq] at h
      obtain ⟨hch2, _, _⟩ := h
      rw [← hch2]
      refine ⟨?_, hwi2, hwr, hww⟩
      show janet_q_count items2 ≤ ch.limit + janet_q_count ch.write_pending
      unfold ChanInv at hinv
      omega
    | cons w wrest =>
      rw [hwls] at hrest
      obtain ⟨wp2, hwwp2, hwq2, heq⟩ := hrest
      rw [heq] at h
      simp only [Prod.mk.injEq] at h
      obtain ⟨hch2, _, _⟩ := h
      rw [← hch2]
      refine ⟨?_, hwi2, hwr, hwwp2⟩
      show janet_q_count items2 ≤ ch.limit + janet_q_count wp2
      have hcw : janet_q_count wp2 + 1 = janet_q_count ch.write_pending := by
        rw [janet_q_count_eq_length _ hwwp2, hwq2,
            janet_q_count_eq_length _ hww, hwls]
        simp
      unfold ChanInv at hinv
      omega

/-! ## Select (`cfun_channel_choice`, C4) -/

/-- A select clause: a `[channel value]` pair (write) or a bare channel
(read), as classified by `janet_indexed_view` with length 2. -/
inductive ChoiceClause where
  | write (cid : Nat) (v : JanetV)
  | read (cid : Nat)
deriving DecidableEq, Repr

/-- The channels a select touches, by identity. -/
def ChanMap : Type := Nat → JanetChannel

/-- First pass of `cfun_channel_choice`, in caller order: a write clause
fires when the channel has room (`count < limit`), a read clause when
`items` is non-empty (`head != tail`); the fired operation is performed
in CHOICE mode and its descriptive tuple returned. -/
def choice_pass1 (s : EvState) (cm : ChanMap) (cur : Nat) :
    List ChoiceClause → Option (Except JanetV (ChanMap × EvState × JanetV))
  | [] => none
  | ChoiceClause.write cid v :: rest =>
      if janet_q_count (cm cid).items < (cm cid).limit then
        some (match janet_channel_push s cid (cm cid) v true cur with
          | Except.ok (ch2, s2, _) =>
              Except.ok (fset cm cid ch2, s2, make_write_result cid)
          | Except.error e => Except.error e)
      else choice_pass1 s cm cur rest
  | ChoiceClause.read cid :: rest =>
      if (cm cid).items.head ≠ (cm cid).items.tail then
        let r := janet_channel_pop s cid (cm cid) true cur
        some (Except.ok (fset cm cid r.1, r.2.1,
          make_read_result cid (r.2.2.getD JanetV.nil)))
      else choice_pass1 s cm cur rest

/-- Second pass: perform the give/take for every clause in order,
discarding results (the return values are ignored in the C code). -/
def choice_pass2 (cur : Nat) :
    ChanMap × EvState → List ChoiceClause → Except JanetV (ChanMap × EvState)
  | (cm, s), [] => Except.ok (cm, s)
  | (cm, s), ChoiceClause.write cid v :: rest =>
      match janet_channel_push s cid (cm cid) v true cur with
      | Except.ok (ch2, s2, _) => choice_pass2 cur (fset cm cid ch2, s2) rest
      | Except.error e => Except.error e
  | (cm, s), ChoiceClause.read cid :: rest =>
      let r := janet_channel_pop s cid (cm cid) true cur
      choice_pass2 cur (fset cm cid r.1, r.2.1) rest

/-- `cfun_channel_choice` (ev/select): `some v` in the result means the
call returned `v` immediately; `none` means the fiber suspends
(`janet_await`). -/
def cfun_channel_choice (s : EvState) (cm : ChanMap) (cur : Nat)
    (clauses : List ChoiceClause) :
    Except JanetV (ChanMap × EvState × Option JanetV) :=
  match choice_pass1 s cm cur clauses with
  | some (Except.ok (cm2, s2, v)) => Except.ok (cm2, s2, some v)
  | some (Except.error e) => Except.error e
  | none =>
      match choice_pass2 cur (cm, s) clauses with
      | Except.ok (cm2, s2) => Except.ok (cm2, s2, none)
      | Except.error e => Except.error e

/-- The first-pass readiness test for a clause, as the C code computes it. -/
def clauseReady (cm : ChanMap) : ChoiceClause → Bool
  | ChoiceClause.write cid _ => decide (janet_q_count (cm cid).items < (cm cid).limit)
  | ChoiceClause.read cid => decide ((cm cid).items.head ≠ (cm cid).items.tail)

/-- The first pass is exactly "find the first ready clause and fire it". -/
theorem choice_pass1_eq (s : EvState) (cm : ChanMap) (cur : Nat) :
    ∀ clauses : List ChoiceClause,
    choice_pass1 s cm cur clauses =
      match clauses.find? (clauseReady cm) with
      | none => none
      | some (ChoiceClause.write cid v) =>
          some (match janet_channel_push s cid (cm cid) v true cur with
            | Except.ok (ch2, s2, _) =>
                Except.ok (fset cm cid ch2, s2, make_write_result cid)
            | Except.error e => Except.error e)
      | some (ChoiceClause.read cid) =>
          some (Except.ok
            (fset cm cid (janet_channel_pop s cid (cm cid) true cur).1,
             (janet_channel_pop s cid (cm cid) true cur).2.1,
             make_read_result cid
               ((janet_channel_pop s cid (cm cid) true cur).2.2.getD JanetV.nil))) := by
  intro clauses
  induction clauses with
  | nil => rfl
  | cons cl rest ih =>
    cases cl with
    | write cid v =>
      by_cases hrdy : janet_q_count (cm cid).items < (cm cid).limit
      · have hb : clauseReady cm (ChoiceClause.write cid v) = true := by
          simp [clauseReady, hrdy]
        rw [List.find?_cons_of_pos _ hb]
        simp only [choice_pass1, if_pos hrdy]
      · have hb : clauseReady cm (ChoiceClause.write cid v) = false := by
          simp [clauseReady, hrdy]
        rw [List.find?_cons_of_neg _ (by simp [hb])]
        simp only [choice_pass1, if_neg hrdy]
        exact ih
    | read cid =>
      by_cases hrdy : (cm cid).items.head ≠ (cm cid).items.tail
      · have hb : clauseReady cm (ChoiceClause.read cid) = true := by
          simp [clauseReady, hrdy]
        rw [List.find?_cons_of_pos _ hb]
        simp only [choice_pass1, if_pos hrdy]
      · have hb : clauseReady cm (ChoiceClause.read cid) = false := by
          simp only [clauseReady, decide_eq_false_iff_not]
          exact hrdy
        rw [List.find?_cons_of_neg _ (by simp [hb])]
        simp only [choice_pass1, if_neg hrdy]
        exact ih

/-- Skipping stale readers never lengthens the queue. -/
theorem skipStale_length (fibers : Nat → FiberRec) :
    ∀ l : List JanetChannelPending, ((skipStale fibers l).2).length ≤ l.length := by
  intro l
  induction l with
  | nil => simp [skipStale]
  | cons r rest ih =>
    by_cases hlive : r.sched_id = (fibers r.fiber).sched_id
    · simp [skipStale, hlive]
    · simp only [skipStale, if_neg hlive]
      exact Nat.le_trans ih (by simp)

/-- Count headroom on all three queues of a channel. -/
def ChanBound (ch : JanetChannel) (k : Nat) : Prop :=
  janet_q_count ch.items + k < JANET_MAX_Q_CAPACITY ∧
  janet_q_count ch.read_pending + k < JANET_MAX_Q_CAPACITY ∧
  janet_q_count ch.write_pending + k < JANET_MAX_Q_CAPACITY

instance (ch : JanetChannel) (k : Nat) : Decidable (ChanBound ch k) := by
  unfold ChanBound; infer_instance

theorem chanBound_mono (ch : JanetChannel) (k : Nat)
    (h : ChanBound ch (k + 1)) : ChanBound ch k := by
  obtain ⟨h1, h2, h3⟩ := h
  exact ⟨by omega, by omega, by omega⟩

/-- `janet_channel_push` cannot panic and keeps the headroom, given one
slot of headroom. -/
theorem janet_channel_push_total (s : EvState) (cid : Nat) (ch : JanetChannel)
    (x : JanetV) (ic : Bool) (cur : Nat) (k : Nat)
    (hwf : WfChan ch) (hb : ChanBound ch (k + 1)) :
    ∃ ch2 s2 bb, janet_channel_push s cid ch x ic cur = Except.ok (ch2, s2, bb) ∧
      WfChan ch2 ∧ ChanBound ch2 k := by
  obtain ⟨hb1, hb2, hb3⟩ := hb
  have hspec := janet_channel_push_spec s cid ch x ic cur hwf (by omega) (by omega)
  obtain ⟨hwi, hwr, hww⟩ := hwf
  have hrl : ((skipStale s.fibers (qlist ch.read_pending)).2).length ≤
      janet_q_count ch.read_pending := by
    rw [janet_q_count_eq_length _ hwr]
    exact skipStale_length s.fibers _
  cases hskip : skipStale s.fibers (qlist ch.read_pending) with
  | mk res rest =>
    rw [hskip] at hspec hrl
    cases res with
    | some r =>
      obtain ⟨rp2, heq, hwrp2, hrpl⟩ := hspec
      refine ⟨_, _, _, heq, ⟨hwi, hwrp2, hww⟩, ?_, ?_, ?_⟩
      · show janet_q_count ch.items + k < _
        omega
      · show janet_q_count rp2 + k < _
        rw [janet_q_count_eq_length _ hwrp2, hrpl]
        simp only at hrl
        omega
      · show janet_q_count ch.write_pending + k < _
        omega
    | none =>
      obtain ⟨items2, rp2, wp2, bb, heq, hwi2, hwrp2, hwwp2, hqi, hqr, hbiff, hbt, hbf⟩ :=
        hspec
      have hc2 : janet_q_count items2 = janet_q_count ch.items + 1 := by
        rw [janet_q_count_eq_length _ hwi2, hqi, List.length_append,
            ← janet_q_count_eq_length _ hwi]
        simp
      have hcr : janet_q_count rp2 ≤ janet_q_count ch.read_pending := by
        rw [janet_q_count_eq_length _ hwrp2, hqr]
        simp only at hrl
        omega
      have hcw : janet_q_count wp2 ≤ janet_q_count ch.write_pending + 1 := by
        cases bb with
        | true =>
          have hqw := hbt rfl
          rw [janet_q_count_eq_length _ hwwp2, hqw, List.length_append,
              ← janet_q_count_eq_length _ hww]
          simp
        | false =>
          rw [hbf rfl]
          exact Nat.le_succ _
      refine ⟨_, _, _, heq, ⟨hwi2, hwrp2, hwwp2⟩, ?_, ?_, ?_⟩
      · show janet_q_count items2 + k < _
        omega
      · show janet_q_count rp2 + k < _
        omega
      · show janet_q_count wp2 + k < _
        omega

/-- `janet_channel_pop` keeps the headroom, given one slot of headroom. -/
theorem janet_channel_pop_total (s : EvState) (cid : Nat) (ch : JanetChannel)
    (ic : Bool) (cur : Nat) (k : Nat)
    (hwf : WfChan ch) (hb : ChanBound ch (k + 1)) :
    ∃ ch2 s2 r, janet_channel_pop s cid ch ic cur = (ch2, s2, r) ∧
      WfChan ch2 ∧ ChanBound ch2 k := by
  obtain ⟨hb1, hb2, hb3⟩ := hb
  have hspec := janet_channel_pop_spec s cid ch ic cur hwf (by omega)
  obtain ⟨hwi, hwr, hww⟩ := hwf
  cases hils : qlist ch.items with
  | nil =>
    rw [hils] at hspec
    obtain ⟨rp2, heq, hwrp2, hqr⟩ := hspec
    have hcr : janet_q_count rp2 = janet_q_count ch.read_pending + 1 := by
      rw [janet_q_count_eq_length _ hwrp2, hqr, List.length_append,
          ← janet_q_count_eq_length _ hwr]
      simp
    refine ⟨_, _, _, heq, ⟨hwi, hwrp2, hww⟩, ?_, ?_, ?_⟩
    · show janet_q_count ch.items + k < _
      omega
    · show janet_q_count rp2 + k < _
      omega
    · show janet_q_count ch.write_pending + k < _
      omega
  | cons x rest =>
    rw [hils] at hspec
    obtain ⟨items2, hwi2, hq2, hrest⟩ := hspec
    have hc2 : janet_q_count items2 + 1 = janet_q_count ch.items := by
      rw [janet_q_count_eq_length _ hwi2, hq2, janet_q_count_eq_length _ hwi, hils]
      simp
    cases hwls : qlist ch.write_pending with
    | nil =>
      rw [hwls] at hrest
      refine ⟨_, _, _, hrest, ⟨hwi2, hwr, hww⟩, ?_, ?_, ?_⟩
      · show janet_q_count items2 + k < _
        omega
      · show janet_q_count ch.read_pending + k < _
        omega
      · show janet_q_count ch.write_pending + k < _
        omega
    | cons w wrest =>
      rw [hwls] at hrest
      obtain ⟨wp2, hwwp2, hwq2, heq⟩ := hrest
      have hcw : janet_q_count wp2 + 1 = janet_q_count ch.write_pending := by
        rw [janet_q_count_eq_length _ hwwp2, hwq2,
            janet_q_count_eq_length _ hww, hwls]
        simp
      refine ⟨_, _, _, heq, ⟨hwi2, hwr, hwwp2⟩, ?_, ?_, ?_⟩
      · show janet_q_count items2 + k < _
        omega
      · show janet_q_count ch.read_pending + k < _
        omega
      · show janet_q_count wp2 + k < _
        omega

/-- The second pass never panics and keeps all channels well formed,
given headroom for one push per clause. -/
theorem choice_pass2_ok (cur : Nat) :
    ∀ (clauses : List ChoiceClause) (cm : ChanMap) (s : EvState),
    (∀ cid, WfChan (cm cid)) →
    (∀ cid, ChanBound (cm cid) clauses.length) →
    ∃ cm2 s2, choice_pass2 cur (cm, s) clauses = Except.ok (cm2, s2) ∧
      (∀ cid, WfChan (cm2 cid)) := by
  intro clauses
  induction clauses with
  | nil =>
    intro cm s hwf hb
    exact ⟨cm, s, rfl, hwf⟩
  | cons cl rest ih =>
    intro cm s hwf hb
    cases cl with
    | write cid v =>
      obtain ⟨ch2, s2, bb, hpush, hwf2, hb2⟩ :=
        janet_channel_push_total s cid (cm cid) v true cur rest.length
          (hwf cid) (hb cid)
      have hwf' : ∀ cid2, WfChan (fset cm cid ch2 cid2) := by
        intro cid2
        by_cases hc : cid2 = cid
        · rw [hc, fset_same]
          exact hwf2
        · rw [fset_other _ _ _ _ hc]
          exact hwf cid2
      have hb' : ∀ cid2, ChanBound (fset cm cid ch2 cid2) rest.length := by
        intro cid2
        by_cases hc : cid2 = cid
        · rw [hc, fset_same]
          exact hb2
        · rw [fset_other _ _ _ _ hc]
          exact chanBound_mono _ _ (hb cid2)
      obtain ⟨cm2, s3, heq, hwfin⟩ := ih (fset cm cid ch2) s2 hwf' hb'
      refine ⟨cm2, s3, ?_, hwfin⟩
      simp only [choice_pass2, hpush]
      exact heq
    | read cid =>
      obtain ⟨ch2, s2, r, hpop, hwf2, hb2⟩ :=
        janet_channel_pop_total s cid (cm cid) true cur rest.length
          (hwf cid) (hb cid)
      have hwf' : ∀ cid2, WfChan (fset cm cid ch2 cid2) := by
        intro cid2
        by_cases hc : cid2 = cid
        · rw [hc, fset_same]
          exact hwf2
        · rw [fset_other _ _ _ _ hc]
          exact hwf cid2
      have hb' : ∀ cid2, ChanBound (fset cm cid ch2 cid2) rest.length := by
        intro cid2
        by_cases hc : cid2 = cid
        · rw [hc, fset_same]
          exact hb2
        · rw [fset_other _ _ _ _ hc]
          exact chanBound_mono _ _ (hb cid2)
      obtain ⟨cm2, s3, heq, hwfin⟩ := ih (fset cm cid ch2) s2 hwf' hb'
      refine ⟨cm2, s3, ?_, hwfin⟩
      simp only [choice_pass2, hpop]
      exact heq

/-! ## Claim theorems -/

/-- C1: a give (`janet_channel_push`) first pops entries from
`read_pending`, discarding each whose stored `sched_id` differs from its
fiber's current `sched_id`, until a live reader is found or the queue is
exhausted; with a live reader, that reader's fiber is scheduled with `v`
(or with `[:take ch v]` when its mode is CHOICE_READ) and the give
returns "not blocked" without modifying `items`; otherwise `v` is
appended to `items` and the give returns "blocked" — appending a
Pending(write) for the current fiber to `write_pending` — exactly when
`count(items) > limit`, else "not blocked". -/
theorem C1_channel_push_semantics (s : EvState) (cid : Nat) (ch : JanetChannel)
    (x : JanetV) (ic : Bool) (cur : Nat)
    (hwf : WfChan ch)
    (hitems : janet_q_count ch.items + 1 < JANET_MAX_Q_CAPACITY)
    (hwp : janet_q_count ch.write_pending + 1 < JANET_MAX_Q_CAPACITY) :
    match skipStale s.fibers (qlist ch.read_pending) with
    | (some r, rest) =>
        ∃ rp2, janet_channel_push s cid ch x ic cur =
            Except.ok ({ ch with read_pending := rp2 },
              janet_schedule s r.fiber
                (if r.mode = ChanMode.choiceRead then make_read_result cid x else x),
              false) ∧
          WfQ rp2 ∧ qlist rp2 = rest
    | (none, rest) =>
        ∃ items2 rp2 wp2 b,
          janet_channel_push s cid ch x ic cur =
            Except.ok ({ ch with items := items2, read_pending := rp2,
                                 write_pending := wp2 }, s, b) ∧
          WfQ items2 ∧ WfQ rp2 ∧ WfQ wp2 ∧
          qlist items2 = qlist ch.items ++ [x] ∧
          qlist rp2 = rest ∧
          (b = true ↔ janet_q_count ch.items + 1 > ch.limit) ∧
          (b = true → qlist wp2 = qlist ch.write_pending ++
            [⟨cur, (s.fibers cur).sched_id,
              if ic then ChanMode.choiceWrite else ChanMode.item⟩]) ∧
          (b = false → wp2 = ch.write_pending) :=
  janet_channel_push_spec s cid ch x ic cur hwf hitems hwp

/-- Witness for C1 at the unbuffered empty channel: the hypotheses hold
and the give parks the value and blocks. -/
theorem C1_witness :
    (WfChan (janet_chan_init 0) ∧
     janet_q_count (janet_chan_init 0).items + 1 < JANET_MAX_Q_CAPACITY ∧
     janet_q_count (janet_chan_init 0).write_pending + 1 < JANET_MAX_Q_CAPACITY) ∧
    (match skipStale evInit.fibers (qlist (janet_chan_init 0).read_pending) with
     | (some r, rest) =>
        ∃ rp2, janet_channel_push evInit 0 (janet_chan_init 0) (JanetV.base 7) false 1 =
            Except.ok ({ janet_chan_init 0 with read_pending := rp2 },
              janet_schedule evInit r.fiber
                (if r.mode = ChanMode.choiceRead
                 then make_read_result 0 (JanetV.base 7) else JanetV.base 7),
              false) ∧
          WfQ rp2 ∧ qlist rp2 = rest
     | (none, rest) =>
        ∃ items2 rp2 wp2 b,
          janet_channel_push evInit 0 (janet_chan_init 0) (JanetV.base 7) false 1 =
            Except.ok ({ janet_chan_init 0 with items := items2,
                                                read_pending := rp2,
                                                write_pending := wp2 }, evInit, b) ∧
          WfQ items2 ∧ WfQ rp2 ∧ WfQ wp2 ∧
          qlist items2 = qlist (janet_chan_init 0).items ++ [JanetV.base 7] ∧
          qlist rp2 = rest ∧
          (b = true ↔ janet_q_count (janet_chan_init 0).items + 1 > (janet_chan_init 0).limit) ∧
          (b = true → qlist wp2 = qlist (janet_chan_init 0).write_pending ++
            [⟨1, (evInit.fibers 1).sched_id,
              if false then ChanMode.choiceWrite else ChanMode.item⟩]) ∧
          (b = false → wp2 = (janet_chan_init 0).write_pending)) :=
  ⟨⟨by decide, by decide, by decide⟩,
   C1_channel_push_semantics evInit 0 (janet_chan_init 0) (JanetV.base 7) false 1
     (by decide) (by decide) (by decide)⟩

/-- C2: a take (`janet_channel_pop`) returns "blocked" and appends a
Pending(read) for the current fiber exactly when `items` is empty;
otherwise it removes and yields the front item, pops at most one entry
from `write_pending` without comparing that entry's `sched_id`, schedules
that writer's fiber (when one exists) with the channel handle in ITEM
mode or with `[:give ch]` in CHOICE_WRITE mode, and returns "not
blocked". -/
theorem C2_channel_pop_semantics (s : EvState) (cid : Nat) (ch : JanetChannel)
    (ic : Bool) (cur : Nat)
    (hwf : WfChan ch)
    (hrp : janet_q_count ch.read_pending + 1 < JANET_MAX_Q_CAPACITY) :
    match qlist ch.items with
    | [] =>
        ∃ rp2, janet_channel_pop s cid ch ic cur =
            ({ ch with read_pending := rp2 }, s, none) ∧
          WfQ rp2 ∧ qlist rp2 = qlist ch.read_pending ++
            [⟨cur, (s.fibers cur).sched_id,
              if ic then ChanMode.choiceRead else ChanMode.item⟩]
    | x :: rest =>
        ∃ items2, WfQ items2 ∧ qlist items2 = rest ∧
          match qlist ch.write_pending with
          | [] => janet_channel_pop s cid ch ic cur =
              ({ ch with items := items2 }, s, some x)
          | w :: wrest =>
              ∃ wp2, WfQ wp2 ∧ qlist wp2 = wrest ∧
                janet_channel_pop s cid ch ic cur =
                  ({ ch with items := items2, write_pending := wp2 },
                   janet_schedule s w.fiber
                     (if w.mode = ChanMode.choiceWrite then make_write_result cid
                      else JanetV.channel cid),
                   some x) :=
  janet_channel_pop_spec s cid ch ic cur hwf hrp

/-- Witness for C2 at the unbuffered empty channel: the hypotheses hold
and the take blocks, registering a pending reader. -/
theorem C2_witness :
    (WfChan (janet_chan_init 0) ∧
     janet_q_count (janet_chan_init 0).read_pending + 1 < JANET_MAX_Q_CAPACITY) ∧
    (match qlist (janet_chan_init 0).items with
     | [] =>
        ∃ rp2, janet_channel_pop evInit 0 (janet_chan_init 0) false 1 =
            ({ janet_chan_init 0 with read_pending := rp2 }, evInit, none) ∧
          WfQ rp2 ∧ qlist rp2 = qlist (janet_chan_init 0).read_pending ++
            [⟨1, (evInit.fibers 1).sched_id,
              if false then ChanMode.choiceRead else ChanMode.item⟩]
     | x :: rest =>
        ∃ items2, WfQ items2 ∧ qlist items2 = rest ∧
          match qlist (janet_chan_init 0).write_pending with
          | [] => janet_channel_pop evInit 0 (janet_chan_init 0) false 1 =
              ({ janet_chan_init 0 with items := items2 }, evInit, some x)
          | w :: wrest =>
              ∃ wp2, WfQ wp2 ∧ qlist wp2 = wrest ∧
                janet_channel_pop evInit 0 (janet_chan_init 0) false 1 =
                  ({ janet_chan_init 0 with items := items2, write_pending := wp2 },
                   janet_schedule evInit w.fiber
                     (if w.mode = ChanMode.choiceWrite then make_write_result 0
                      else JanetV.channel 0),
                   some x)) :=
  ⟨⟨by decide, by decide⟩,
   C2_channel_pop_semantics evInit 0 (janet_chan_init 0) false 1 (by decide) (by decide)⟩

/-- C9: over any operation sequence from the empty ring queue, pops
return exactly the pushed elements in FIFO order and the count equals the
reference model's length (pushes minus pops, with a push at the hard cap
dropped and a pop on empty yielding nothing), including across capacity
growth with a wrapped live segment. -/
theorem C9_ring_queue_fifo (dflt : α) (ops : List (QOp α)) :
    WfQ (runQ (janet_q_init dflt) ops).1 ∧
    qlist (runQ (janet_q_init dflt) ops).1 = (fifoRun [] ops).1 ∧
    (runQ (janet_q_init dflt) ops).2 = (fifoRun [] ops).2 ∧
    janet_q_count (runQ (janet_q_init dflt) ops).1 = (fifoRun [] ops).1.length := by
  obtain ⟨w, a, b⟩ := runQ_sim ops (janet_q_init dflt) (wfq_init dflt)
  rw [qlist_init] at a b
  exact ⟨w, a, b, by rw [janet_q_count_eq_length _ w, a]⟩

/-- Fixture: a scheduler state whose every fiber has SCHEDULED set. -/
def sC10 : EvState :=
  ⟨fun _ => ⟨2, true, none⟩, janet_q_init ⟨0, JanetV.nil, JanetSignal.ok⟩⟩

/-- C10: `janet_schedule_signal` (and hence `janet_cancel` and
`janet_schedule`) on a fiber whose SCHEDULED flag is set is a no-op: the
state — run queue, `sched_id`, everything — is unchanged, so the supplied
value and signal are discarded and the fiber later resumes with the
earlier scheduling's value and signal only. -/
theorem C10_schedule_noop (s : EvState) (fid : Nat) (v : JanetV) (sig : JanetSignal)
    (h : (s.fibers fid).scheduled = true) :
    janet_schedule_signal s fid v sig = s ∧
    janet_cancel s fid v = s ∧
    janet_schedule s fid v = s := by
  unfold janet_cancel janet_schedule janet_schedule_signal
  simp [h]

/-- Witness for C10: cancelling an already-scheduled fiber changes
nothing. -/
theorem C10_witness :
    (sC10.fibers 4).scheduled = true ∧
    (janet_schedule_signal sC10 4 JanetV.nil JanetSignal.error = sC10 ∧
     janet_cancel sC10 4 JanetV.nil = sC10 ∧
     janet_schedule sC10 4 JanetV.nil = sC10) :=
  ⟨rfl, C10_schedule_noop sC10 4 JanetV.nil JanetSignal.error rfl⟩

/-- Fixture for C3: an unbuffered channel after gives by two distinct
fibers, with no reader — both values are parked. -/
def chAfterTwoGives : JanetChannel :=
  match janet_channel_push evInit 0 (janet_chan_init 0) (JanetV.base 1) false 1 with
  | Except.ok (ch1, s1, _) =>
      match janet_channel_push s1 0 ch1 (JanetV.base 2) false 2 with
      | Except.ok (ch2, _, _) => ch2
      | Except.error _ => janet_chan_init 0
  | Except.error _ => janet_chan_init 0

/-- Counterexample to C3 as stated: on a channel with `limit = 0`, a give
from fiber 1 followed by a give from fiber 2 (no readers) leaves
`count(items) = 2 > limit + 1` between loop iterations — the claimed bound
`count(items) ≤ L + 1` fails with two blocked writers. -/
theorem C3_counterexample :
    janet_q_count chAfterTwoGives.items = 2 ∧
    chAfterTwoGives.limit = 0 ∧
    janet_q_count chAfterTwoGives.items > chAfterTwoGives.limit + 1 ∧
    janet_q_count chAfterTwoGives.write_pending = 2 := by
  decide

/-- C3 (amended): the bound is `count(items) ≤ limit + count(write_pending)`
(one parked item per blocked writer, so ≤ L + 1 holds only with at most
one blocked writer): it holds initially, is preserved by every
non-panicking `janet_channel_push` and by every `janet_channel_pop`, and
at quiescence (no pending writers) gives `count(items) ≤ limit`. -/
theorem C3_channel_count_invariant :
    (∀ limit, ChanInv (janet_chan_init limit) ∧ WfChan (janet_chan_init limit)) ∧
    (∀ s cid ch x ic cur ch2 s2 b,
      WfChan ch →
      janet_q_count ch.items + 1 < JANET_MAX_Q_CAPACITY →
      janet_q_count ch.write_pending + 1 < JANET_MAX_Q_CAPACITY →
      ChanInv ch →
      janet_channel_push s cid ch x ic cur = Except.ok (ch2, s2, b) →
      ChanInv ch2 ∧ WfChan ch2) ∧
    (∀ s cid ch ic cur ch2 s2 r,
      WfChan ch →
      janet_q_count ch.read_pending + 1 < JANET_MAX_Q_CAPACITY →
      ChanInv ch →
      janet_channel_pop s cid ch ic cur = (ch2, s2, r) →
      ChanInv ch2 ∧ WfChan ch2) ∧
    (∀ ch : JanetChannel, ChanInv ch → janet_q_count ch.write_pending = 0 →
      janet_q_count ch.items ≤ ch.limit) := by
  refine ⟨chanInv_init, ?_, ?_, ?_⟩
  · intro s cid ch x ic cur ch2 s2 b hwf h1 h2 hinv h
    exact chanInv_push s cid ch x ic cur hwf h1 h2 hinv ch2 s2 b h
  · intro s cid ch ic cur ch2 s2 r hwf h1 hinv h
    exact chanInv_pop s cid ch ic cur hwf h1 hinv ch2 s2 r h
  · intro ch hinv hz
    unfold ChanInv at hinv
    omega

/-- Fixtures for C5: fiber 7 idle at epoch 5; then scheduled. -/
def sC5_0 : EvState :=
  ⟨fun _ => ⟨5, false, none⟩, janet_q_init ⟨0, JanetV.nil, JanetSignal.ok⟩⟩

def sC5_1 : EvState := janet_schedule sC5_0 7 JanetV.nil

/-- Counterexample to C5 as stated: `sched_id` is incremented when the
fiber is scheduled (5 → 6 at `janet_schedule`, while the task is still in
the run queue), and the subsequent resume (`run_one`'s bookkeeping on the
popped task) clears SCHEDULED but leaves `sched_id` at 6 — the increment
does not coincide with the resume. -/
theorem C5_counterexample :
    (sC5_0.fibers 7).sched_id = 5 ∧
    (sC5_1.fibers 7).sched_id = 6 ∧
    (sC5_1.fibers 7).scheduled = true ∧
    ((runTaskStep sC5_1).fibers 7).scheduled = false ∧
    ¬(((runTaskStep sC5_1).fibers 7).sched_id = (sC5_1.fibers 7).sched_id + 1) := by
  decide

/-- C5 (amended): the scheduler-side resume of a popped task clears the
fiber's SCHEDULED flag and leaves every `sched_id` unchanged; the
`sched_id` increment instead coincides with scheduling
(`janet_schedule_signal` on an unscheduled fiber, which precedes the
resume); and `janet_fiber_did_resume` unlistens the fiber's `waiting`
listener when it is set. -/
theorem C5_resume_semantics :
    (∀ (s : EvState) (t : JanetTask) (sp : JanetQueue JanetTask),
      janet_q_pop s.spawn = some (t, sp) →
      ((runTaskStep s).fibers t.fiber).scheduled = false ∧
      (∀ fid, ((runTaskStep s).fibers fid).sched_id = (s.fibers fid).sched_id) ∧
      (runTaskStep s).spawn = sp) ∧
    (∀ (s : EvState) (fid : Nat) (v : JanetV) (sig : JanetSignal),
      (s.fibers fid).scheduled = false →
      ((janet_schedule_signal s fid v sig).fibers fid).sched_id =
        (s.fibers fid).sched_id + 1 ∧
      ((janet_schedule_signal s fid v sig).fibers fid).scheduled = true) ∧
    (∀ (p : JanetPollable) (fibers : Nat → FiberRec) (fid lid : Nat)
        (st : ListenerState),
      (fibers fid).waiting = some lid →
      p.listeners.find? (fun u => u.lid = lid) = some st →
      st.fiber = some fid →
      ((janet_fiber_did_resume p fibers fid).2 fid).waiting = none ∧
      (janet_fiber_did_resume p fibers fid).1.listeners =
        removeListener p.listeners lid) := by
  refine ⟨?_, ?_, ?_⟩
  · intro s t sp hpop
    unfold runTaskStep
    rw [hpop]
    refine ⟨?_, ?_, rfl⟩
    · show (fset s.fibers t.fiber _ t.fiber).scheduled = false
      rw [fset_same]
    · intro fid
      show (fset s.fibers t.fiber _ fid).sched_id = _
      by_cases hf : fid = t.fiber
      · rw [hf, fset_same]
      · rw [fset_other _ _ _ _ hf]
  · intro s fid v sig hns
    unfold janet_schedule_signal
    rw [if_neg (by rw [hns]; exact Bool.false_ne_true)]
    constructor
    · show (fset s.fibers fid _ fid).sched_id = _
      rw [fset_same]
    · show (fset s.fibers fid _ fid).scheduled = true
      rw [fset_same]
  · intro p fibers fid lid st hw hfind hst
    unfold janet_fiber_did_resume janet_unlisten_impl
    rw [hw]
    dsimp only
    rw [hfind]
    dsimp only
    rw [hst]
    dsimp only
    rw [if_pos hw]
    exact ⟨by rw [fset_same], rfl⟩

/-- C6: the run queue holds at most one task per fiber, with the
SCHEDULED flag as the guard: in every state reachable through
`janet_schedule_signal` calls and run-queue drains, the tasks queued in
`janet_vm_spawn` have pairwise distinct fibers and each queued fiber's
flag is set, so no second task for a fiber can be enqueued before it is
dequeued and resumed. -/
theorem C6_run_queue_no_duplicates (s : EvState) (hr : Reachable s) : SpawnInv s :=
  spawnInv_reachable s hr

/-- Witness for C6 at the initial state. -/
theorem C6_witness : SpawnInv evInit :=
  C6_run_queue_no_duplicates evInit Relation.ReflTransGen.refl

/-- Counterexample to C7's tie clause: three timeouts with equal `when`
(5) and fibers 1, 2, 3 inserted in that order drain as fibers 1, 3, 2 —
not in insertion order. -/
theorem C7_counterexample :
    heapDrain (([⟨5, 1, 0, false⟩, ⟨5, 2, 0, false⟩, ⟨5, 3, 0, false⟩] :
        List JanetTimeout).foldl add_timeout emptyHeap) =
      [⟨5, 1, 0, false⟩, ⟨5, 3, 0, false⟩, ⟨5, 2, 0, false⟩] ∧
    ¬(heapDrain (([⟨5, 1, 0, false⟩, ⟨5, 2, 0, false⟩, ⟨5, 3, 0, false⟩] :
        List JanetTimeout).foldl add_timeout emptyHeap) =
      [⟨5, 1, 0, false⟩, ⟨5, 2, 0, false⟩, ⟨5, 3, 0, false⟩]) := by
  decide

/-- C7 (amended): successive removals of the heap minimum
(`pop_timeout 0` after any sequence of `add_timeout` insertions) yield
entries with non-decreasing `when`; entries with equal `when` may come
out in any order (the swap-based heap is not stable). -/
theorem C7_timer_drain_sorted (tos : List JanetTimeout) :
    List.Chain' (fun a b => a.when ≤ b.when)
      (heapDrain (tos.foldl add_timeout emptyHeap)) :=
  (heapDrainGo_spec (tos.foldl add_timeout emptyHeap).count
    (tos.foldl add_timeout emptyHeap)
    (foldl_add_timeout_heap tos emptyHeap isHeap_empty) (le_refl _)).1

/-- Fixtures for C8: fiber 1 listens for READ, then fiber 2 for WRITE, on
one fresh pollable. -/
def pollAfterTwoListens : JanetPollable × (Nat → FiberRec) :=
  match janet_listen_impl ⟨0, []⟩ (fun _ => ⟨0, false, none⟩) 1
      JANET_ASYNC_LISTEN_READ 10 with
  | Except.ok (p1, f1, _) =>
      match janet_listen_impl p1 f1 2 JANET_ASYNC_LISTEN_WRITE 11 with
      | Except.ok (p2, f2, _) => (p2, f2)
      | Except.error _ => (⟨0, []⟩, f1)
  | Except.error _ => (⟨0, []⟩, fun _ => ⟨0, false, none⟩)

def pollAfterUnlisten : JanetPollable :=
  (janet_unlisten_impl pollAfterTwoListens.1 pollAfterTwoListens.2 10).1

/-- Counterexample to C8 as stated: after two listens (READ by fiber 1,
WRITE by fiber 2) the invariant holds, but unlistening the READ listener
clears the whole removed mask — including the SPAWNER bit that
`janet_listen_impl` forces into every listener's mask — so the aggregate
mask (2) no longer equals the OR of the surviving listener's mask (6). -/
theorem C8_counterexample :
    MaskInv pollAfterTwoListens.1 ∧
    pollAfterUnlisten.mask = 2 ∧
    orMasks pollAfterUnlisten.listeners = 6 ∧
    ¬ MaskInv pollAfterUnlisten := by
  decide

/-- C8 (amended): every `janet_listen_impl` preserves
`mask = OR(listener masks)`; after `janet_unlisten_impl` of a present
listener the aggregate mask equals the OR of the surviving listeners'
masks with all of the removed listener's bits cleared — bits shared with
survivors (always including the forced SPAWNER bit) are lost, so the
plain invariant survives an unlisten only when no survivor shares a bit
with the removed listener. -/
theorem C8_mask_aggregation :
    (∀ p fibers cur mask newlid p2 fibers2 st,
      MaskInv p →
      janet_listen_impl p fibers cur mask newlid = Except.ok (p2, fibers2, st) →
      MaskInv p2) ∧
    (∀ p fibers lid st,
      MaskInv p →
      p.listeners.find? (fun u => u.lid = lid) = some st →
      (janet_unlisten_impl p fibers lid).1.mask =
        maskClear (orMasks ((janet_unlisten_impl p fibers lid).1.listeners)) st.mask ∧
      (janet_unlisten_impl p fibers lid).1.listeners =
        removeListener p.listeners lid) := by
  constructor
  · intro p fibers cur mask newlid p2 fibers2 st hinv h
    exact (janet_listen_impl_maskInv p fibers cur mask newlid p2 fibers2 st hinv h).1
  · intro p fibers lid st hinv hfind
    exact janet_unlisten_impl_mask p fibers lid st hinv hfind

/-- Fixture for C4: channel 0 is unbuffered and empty but has one live
pending reader (fiber 2 at its current epoch). -/
def chWithLiveReader : JanetChannel :=
  { janet_chan_init 0 with
      read_pending := (janet_q_push (janet_chan_init 0).read_pending
        ⟨2, 0, ChanMode.item⟩).1 }

def cmC4 : ChanMap := fset (fun _ => janet_chan_init 0) 0 chWithLiveReader

/-- The select `(ev/select [ch v])` of the counterexample. -/
def choiceC4 : Except JanetV (ChanMap × EvState × Option JanetV) :=
  cfun_channel_choice evInit cmC4 1 [ChoiceClause.write 0 (JanetV.base 42)]

/-- Counterexample to C4 as stated: with `limit = 0` the write clause
fails the first pass (`0 < 0`), so per the claim it should be registered
as a CHOICE_WRITE Pending; instead the second pass performs the give,
which finds the live reader, schedules it and registers nothing — the
fiber suspends with `write_pending` still empty. -/
theorem C4_counterexample :
    (choiceC4.toOption.map (fun p =>
      (p.2.2, janet_q_count (p.1 0).write_pending,
       janet_q_count (p.1 0).read_pending, (p.2.1.fibers 2).scheduled)))
      = some (none, 0, 0, true) := by
  decide

/-- C4 (amended): the first pass fires the first ready clause in caller
order — a write clause is ready iff `count(items) < limit` and then
performs a non-blocking give in CHOICE_WRITE mode returning `[:give ch]`;
a read clause is ready iff `items` is non-empty and then performs a
non-blocking take in CHOICE_READ mode returning `[:take ch v]`.  If no
clause is ready, the second pass performs the give/take of every clause
in order and the fiber suspends; a clause is registered as a CHOICE
Pending exactly when its operation blocks at that point — a give that
finds a live pending reader schedules the reader instead of registering,
and a take that finds items consumes one. -/
theorem C4_select_two_pass :
    (∀ (s : EvState) (cm : ChanMap) (cur : Nat) (clauses : List ChoiceClause),
      (∀ cid, WfChan (cm cid)) →
      (∀ cid, ChanBound (cm cid) (clauses.length + 1)) →
      match clauses.find? (clauseReady cm) with
      | some (ChoiceClause.write cid v) =>
          janet_q_count (cm cid).items < (cm cid).limit ∧
          ∃ ch2 s2, janet_channel_push s cid (cm cid) v true cur =
              Except.ok (ch2, s2, false) ∧
            cfun_channel_choice s cm cur clauses =
              Except.ok (fset cm cid ch2, s2, some (make_write_result cid))
      | some (ChoiceClause.read cid) =>
          qlist (cm cid).items ≠ [] ∧
          ∃ ch2 s2 v2, janet_channel_pop s cid (cm cid) true cur =
              (ch2, s2, some v2) ∧
            cfun_channel_choice s cm cur clauses =
              Except.ok (fset cm cid ch2, s2, some (make_read_result cid v2))
      | none =>
          (∀ cl ∈ clauses, clauseReady cm cl = false) ∧
          ∃ cm2 s2, cfun_channel_choice s cm cur clauses =
              Except.ok (cm2, s2, none) ∧
            choice_pass2 cur (cm, s) clauses = Except.ok (cm2, s2)) ∧
    (∀ (s : EvState) (cid : Nat) (ch : JanetChannel) (v : JanetV) (cur : Nat),
      WfChan ch →
      janet_q_count ch.items + 1 < JANET_MAX_Q_CAPACITY →
      janet_q_count ch.write_pending + 1 < JANET_MAX_Q_CAPACITY →
      (skipStale s.fibers (qlist ch.read_pending)).1 = none →
      janet_q_count ch.items + 1 > ch.limit →
      ∃ ch2 s2, janet_channel_push s cid ch v true cur = Except.ok (ch2, s2, true) ∧
        qlist ch2.write_pending = qlist ch.write_pending ++
          [⟨cur, (s.fibers cur).sched_id, ChanMode.choiceWrite⟩]) ∧
    (∀ (s : EvState) (cid : Nat) (ch : JanetChannel) (v : JanetV) (cur : Nat)
        (r : JanetChannelPending) (rest : List JanetChannelPending),
      WfChan ch →
      janet_q_count ch.items + 1 < JANET_MAX_Q_CAPACITY →
      janet_q_count ch.write_pending + 1 < JANET_MAX_Q_CAPACITY →
      skipStale s.fibers (qlist ch.read_pending) = (some r, rest) →
      ∃ ch2 s2, janet_channel_push s cid ch v true cur = Except.ok (ch2, s2, false) ∧
        ch2.items = ch.items ∧ ch2.write_pending = ch.write_pending ∧
        s2 = janet_schedule s r.fiber
          (if r.mode = ChanMode.choiceRead then make_read_result cid v else v)) ∧
    (∀ (s : EvState) (cid : Nat) (ch : JanetChannel) (cur : Nat),
      WfChan ch →
      janet_q_count ch.read_pending + 1 < JANET_MAX_Q_CAPACITY →
      qlist ch.items = [] →
      ∃ ch2, janet_channel_pop s cid ch true cur = (ch2, s, none) ∧
        qlist ch2.read_pending = qlist ch.read_pending ++
          [⟨cur, (s.fibers cur).sched_id, ChanMode.choiceRead⟩]) := by
  refine ⟨?_, ?_, ?_, ?_⟩
  · intro s cm cur clauses hwf hb
    cases hfind : clauses.find? (clauseReady cm) with
    | none =>
      constructor
      · intro cl hcl
        have := List.find?_eq_none.mp hfind cl hcl
        exact Bool.eq_false_iff.mpr (by simpa using this)
      · obtain ⟨cm2, s2, hp2, hwf2⟩ := choice_pass2_ok cur clauses cm s hwf
          (fun cid => chanBound_mono _ _ (hb cid))
        have hp1 : choice_pass1 s cm cur clauses = none := by
          rw [choice_pass1_eq, hfind]
        refine ⟨cm2, s2, ?_, hp2⟩
        unfold cfun_channel_choice
        rw [hp1]
        dsimp only
        rw [hp2]
    | some cl =>
      have hcr : clauseReady cm cl = true := List.find?_some hfind
      cases cl with
      | write cid v =>
        have hrdy : janet_q_count (cm cid).items < (cm cid).limit := by
          simpa [clauseReady] using hcr
        obtain ⟨hb1, hb2, hb3⟩ := hb cid
        have hspec := janet_channel_push_spec s cid (cm cid) v true cur
          (hwf cid) (by omega) (by omega)
        cases hskip : skipStale s.fibers (qlist (cm cid).read_pending) with
        | mk res rest =>
          rw [hskip] at hspec
          cases res with
          | some r =>
            obtain ⟨rp2, heq, _, _⟩ := hspec
            refine ⟨hrdy, _, _, heq, ?_⟩
            unfold cfun_channel_choice
            rw [choice_pass1_eq, hfind]
            dsimp only
            rw [heq]
          | none =>
            obtain ⟨items2, rp2, wp2, b, heq, _, _, _, _, _, hbiff, _, hbf⟩ := hspec
            have hbfalse : b = false := by
              cases b with
              | false => rfl
              | true => exact absurd (hbiff.mp rfl) (by omega)
            rw [hbfalse] at heq
            refine ⟨hrdy, _, _, heq, ?_⟩
            unfold cfun_channel_choice
            rw [choice_pass1_eq, hfind]
            dsimp only
            rw [heq]
      | read cid =>
        have hrdy : (cm cid).items.head ≠ (cm cid).items.tail := by
          simpa [clauseReady] using hcr
        have hne : qlist (cm cid).items ≠ [] := by
          intro hcon
          exact hrdy ((qlist_empty_iff _ (hwf cid).1).mp hcon)
        obtain ⟨hb1, hb2, hb3⟩ := hb cid
        have hspec := janet_channel_pop_spec s cid (cm cid) true cur
          (hwf cid) (by omega)
        cases hils : qlist (cm cid).items with
        | nil => exact absurd hils hne
        | cons x rest =>
          rw [hils] at hspec
          obtain ⟨items2, hwi2, hq2, hrest⟩ := hspec
          cases hwls : qlist (cm cid).write_pending with
          | nil =>
            rw [hwls] at hrest
            refine ⟨hne, _, _, x, hrest, ?_⟩
            unfold cfun_channel_choice
            rw [choice_pass1_eq, hfind]
            dsimp only
            rw [hrest]
            rfl
          | cons w wrest =>
            rw [hwls] at hrest
            obtain ⟨wp2, hwwp2, hwq2, heq⟩ := hrest
            refine ⟨hne, _, _, x, heq, ?_⟩
            unfold cfun_channel_choice
            rw [choice_pass1_eq, hfind]
            dsimp only
            rw [heq]
            rfl
  · intro s cid ch v cur hwf h1 h2 hnone hfull
    have hspec := janet_channel_push_spec s cid ch v true cur hwf h1 h2
    cases hskip : skipStale s.fibers (qlist ch.read_pending) with
    | mk res rest =>
      rw [hskip] at hspec hnone
      cases res with
      | some r => exact absurd hnone (by simp)
      | none =>
        obtain ⟨items2, rp2, wp2, b, heq, _, _, _, _, _, hbiff, hbt, _⟩ := hspec
        have hbtrue : b = true := hbiff.mpr hfull
        rw [hbtrue] at heq
        refine ⟨_, _, heq, ?_⟩
        show qlist wp2 = _
        have := hbt hbtrue
        rw [this]
        rfl
  · intro s cid ch v cur r rest hwf h1 h2 hskip
    have hspec := janet_channel_push_spec s cid ch v true cur hwf h1 h2
    rw [hskip] at hspec
    obtain ⟨rp2, heq, _, _⟩ := hspec
    exact ⟨_, _, heq, rfl, rfl, rfl⟩
  · intro s cid ch cur hwf h1 hemp
    have hspec := janet_channel_pop_spec s cid ch true cur hwf h1
    rw [hemp] at hspec
    obtain ⟨rp2, heq, hwrp2, hqr⟩ := hspec
    refine ⟨_, heq, ?_⟩
    show qlist rp2 = _
    rw [hqr]
    rfl
